import Mathlib

/-!
Verification of the setter-discovery engine of the `listsetters` Go package
(`functions/go/list-setters/listsetters/list_setters.go`).

Strings are modelled as `List Char` (Go strings are sequences of code units;
all operations used by the engine are per-character, and for UTF-8 strings
byte-wise order coincides with code-point order).

The dynamic regular expression built by `currentSetterValues` is modelled
semantically: after `regexp.QuoteMeta`, the pattern consists of quoted
characters only, and each `strings.ReplaceAll(pattern, quotedName, "(?P<x>.*)")`
call replaces exactly the occurrences of the (quoted) placeholder text.
`QuoteMeta` is a per-character homomorphism, every backslash it emits starts an
escape unit, the group text `(?P<x>.*)` contains no backslash and no brace, and
no quoted placeholder contains the group text; hence occurrences of
`QuoteMeta(tok)` inside the partially substituted quoted pattern are exactly
aligned with occurrences of `tok` inside the raw pattern.  The construction is
therefore modelled as the same left-to-right `ReplaceAll` on the raw pattern
over an alphabet extended with a capture-group marker (`Item.grp`), and the
matching semantics of the resulting expression (a sequence of literal
characters and greedy `(.*)` groups, where `.` matches anything but a newline)
is implemented directly with Go's leftmost-first (Perl-like, backtracking
priority) semantics of `regexp.FindStringSubmatch`.  The constructed
expression always compiles (all literal text is quoted), so the
compilation-failure branch of the Go code is unreachable and has no model.
-/

namespace Listsetters

/-- `const SetterCommentIdentifier = "# kpt-set: "` as a character list. -/
def sciL : List Char := ("# kpt-set: ").data

/-- Go `unicode.IsSpace` (the whitespace set used by `strings.TrimSpace`). -/
def goIsSpace (c : Char) : Bool :=
  let n := c.toNat
  (n == 0x20) || (0x9 ≤ n && n ≤ 0xd) || (n == 0x85) || (n == 0xa0) ||
  (n == 0x1680) || (0x2000 ≤ n && n ≤ 0x200a) || (n == 0x2028) ||
  (n == 0x2029) || (n == 0x202f) || (n == 0x205f) || (n == 0x3000)

/-- `strings.TrimSpace`. -/
def goTrimSpace (s : List Char) : List Char :=
  ((s.dropWhile goIsSpace).reverse.dropWhile goIsSpace).reverse

/-- `strings.HasPrefix` (on character lists). -/
def isPre : List Char → List Char → Bool
  | [], _ => true
  | _ :: _, [] => false
  | a :: as, b :: bs => (a == b) && isPre as bs

/-- `strings.HasSuffix`. -/
def isSuf (suf s : List Char) : Bool := isPre suf.reverse s.reverse

/-- `strings.TrimPrefix`. -/
def goTrimPre (pre s : List Char) : List Char :=
  if isPre pre s then s.drop pre.length else s

/-- `strings.TrimSuffix`. -/
def goTrimSuf (suf s : List Char) : List Char :=
  if isSuf suf s then s.take (s.length - suf.length) else s

/-- `extractSetterPattern`: strip the `# kpt-set: ` marker from a line
comment; empty result when the marker is absent. -/
def extractSetterPattern (lineComment : List Char) : List Char :=
  if isPre sciL lineComment then goTrimSpace (goTrimPre sciL lineComment)
  else []

/-- `clean`: extract the value enclosed in `$\x7b \x7d`. -/
def clean (input : List Char) : List Char :=
  goTrimSuf ['\x7d'] (goTrimPre ['$', '\x7b'] (goTrimSpace input))

/-- Split a character list at its first closing brace: the step the scanner
for the placeholder expression `\$\\\x7b([^\x7d]*)\\\x7d` performs after `$\x7b`
(`[^\x7d]*` stops at the first `\x7d`). -/
def splitBrace : List Char → Option (List Char × List Char)
  | [] => none
  | c :: cs =>
    if c = '\x7d' then some ([], cs)
    else (splitBrace cs).map (fun pr => (c :: pr.1, pr.2))

/-- Leftmost match of the placeholder expression `\$\\\x7b([^\x7d]*)\\\x7d`
(used by `unresolvedSetters` via `FindAllString`): returns the text before the
match, the matched placeholder token, and the rest. -/
def scanToken : List Char → Option (List Char × List Char × List Char)
  | [] => none
  | [_] => none
  | c :: d :: ds =>
    if c = '$' ∧ d = '\x7b' then
      match splitBrace ds with
      | some pr => some ([], c :: d :: (pr.1 ++ ['\x7d']), pr.2)
      | none => none
    else
      (scanToken (d :: ds)).map (fun pr => (c :: pr.1, pr.2.1, pr.2.2))

/-- One segment of a pattern: literal text, or a placeholder token
(the token still carries its `$\x7b \x7d` delimiters). -/
inductive Seg where
  | lit (s : List Char)
  | ph (tok : List Char)
deriving DecidableEq

/-- Decompose a pattern into literal and placeholder segments by repeated
leftmost placeholder matching (fuelled; the fuel `length + 1` always
suffices since each found token is nonempty). -/
def tokenizeF : Nat → List Char → List Seg
  | 0, p => [Seg.lit p]
  | fuel + 1, p =>
    match scanToken p with
    | none => [Seg.lit p]
    | some pr => Seg.lit pr.1 :: Seg.ph pr.2.1 :: tokenizeF fuel pr.2.2

def tokenize (p : List Char) : List Seg := tokenizeF (p.length + 1) p

/-- The placeholder tokens of a segment list, in order. -/
def phTokens (segs : List Seg) : List (List Char) :=
  segs.filterMap (fun s => match s with | .ph t => some t | .lit _ => none)

/-- `unresolvedSetters`: all `$\x7b...\x7d` tokens of a pattern, left to
right, duplicates kept (`FindAllString` of the placeholder expression). -/
def unresolvedSetters (pattern : List Char) : List (List Char) :=
  phTokens (tokenize pattern)

/-- One symbol of the constructed regular expression: a literal character or
a greedy capture group `(?P<x>.*)`. -/
inductive Item where
  | chr (c : Char)
  | grp
deriving DecidableEq

def itemsOfString (s : List Char) : List Item := s.map Item.chr

/-- One `strings.ReplaceAll(pattern, tok, "(?P<x>.*)")` step, on the raw
pattern extended with group markers (see the header comment for why this is
exactly the quoted-level `ReplaceAll`): leftmost non-overlapping occurrences
of `tok` are each replaced by one group marker.  Fuelled; `length + 1`
suffices (each step consumes at least one item). -/
def replaceTokF : Nat → List Item → List Char → List Item
  | 0, s, _ => s
  | fuel + 1, s, tok =>
    if tok ≠ [] ∧ (itemsOfString tok).isPrefixOf s then
      Item.grp :: replaceTokF fuel (s.drop tok.length) tok
    else
      match s with
      | [] => []
      | i :: rest => i :: replaceTokF fuel rest tok

def replaceTok (s : List Item) (tok : List Char) : List Item :=
  replaceTokF (s.length + 1) s tok

/-- The item sequence of the regular expression `currentSetterValues`
compiles: the quoted pattern with every placeholder occurrence replaced, in
`urs` order, by a capture group. -/
def buildItems (pattern : List Char) : List Item :=
  (unresolvedSetters pattern).foldl replaceTok (itemsOfString pattern)

/-- The item sequence corresponding to a segment list (each placeholder is
exactly one group).  `buildItems p = segsItems (tokenize p)` holds for
ordinary patterns; it can fail when one placeholder's text also occurs
inside another placeholder occurrence. -/
def segsItems (segs : List Seg) : List Item :=
  segs.foldr
    (fun s acc =>
      match s with
      | .lit l => itemsOfString l ++ acc
      | .ph _ => Item.grp :: acc) []

/-- First successful application of `f` along a list (the backtracking
priority order of the regexp engine). -/
def firstSome (f : α → Option β) : List α → Option β
  | [] => none
  | a :: l =>
    match f a with
    | some b => some b
    | none => firstSome f l

/-- The split candidates a greedy `(.*)` group tries, longest first; `.`
matches any character except a newline. -/
def grpSplits (text : List Char) : List (List Char × List Char) :=
  ((List.range ((text.takeWhile (fun c => !(c == '\n'))).length + 1)).reverse).map
    (fun k => (text.take k, text.drop k))

/-- Match the item sequence against a prefix of `text` with Go's
leftmost-first (greedy, backtracking-priority) semantics.  Returns
(captures, consumed text, remaining text). -/
def matchCore : List Item → List Char → Option (List (List Char) × List Char × List Char)
  | [], text => some ([], [], text)
  | Item.chr _ :: _, [] => none
  | Item.chr c :: items, t :: ts =>
    if t = c then (matchCore items ts).map (fun r => (r.1, c :: r.2.1, r.2.2))
    else none
  | Item.grp :: items, text =>
    firstSome
      (fun sp => (matchCore items sp.2).map (fun r => (sp.1 :: r.1, sp.1 ++ r.2.1, r.2.2)))
      (grpSplits text)

/-- `regexp.FindStringSubmatch`: try successive start positions left to
right; at the first position where the expression matches, return the
consumed (matched) text and the captures.  Fuelled; `length + 1` always
suffices. -/
def findFromF : Nat → List Item → List Char → Option (List Char × List (List Char))
  | 0, _, _ => none
  | _ + 1, items, [] => (matchCore items []).map (fun r => (r.2.1, r.1))
  | fuel + 1, items, c :: ts =>
    match matchCore items (c :: ts) with
    | some r => some (r.2.1, r.1)
    | none => findFromF fuel items ts

def findFrom (items : List Item) (text : List Char) : Option (List Char × List (List Char)) :=
  findFromF (text.length + 1) items text

/-- Go map write `res[k] = v` on an association list. -/
def upsertA : List (List Char × List Char) → List Char → List Char → List (List Char × List Char)
  | [], n, v => [(n, v)]
  | p :: rest, n, v => if p.1 = n then (n, v) :: rest else p :: upsertA rest n v

/-- The final loop of `currentSetterValues`: assign each cleaned name its
capture, but return the empty map as soon as any capture is empty. -/
def bindPairs : List (List Char × List Char) → List (List Char × List Char) → List (List Char × List Char)
  | acc, [] => acc
  | acc, (n, c) :: rest => if c = [] then [] else bindPairs (upsertA acc n c) rest

/-- `currentSetterValues(pattern, value)`: derive setter names to values by
matching the generated expression against `value`. -/
def currentSetterValues (pattern value : List Char) : List (List Char × List Char) :=
  let urs := unresolvedSetters pattern
  match findFrom (buildItems pattern) value with
  | none => []
  | some r =>
    if r.2.length = urs.length then bindPairs [] (List.zip (urs.map clean) r.2)
    else []

/-- `ScalarSetter` stores name, value and count of the scalar setter. -/
structure ScalarSetter where
  Name : List Char
  Value : List Char
  Count : Nat
deriving DecidableEq

/-- `ArraySetter` stores name, values and count of the array setter. -/
structure ArraySetter where
  Name : List Char
  Values : List (List Char)
  Count : Nat
deriving DecidableEq

/-- `Result` represents results of setter discovery.  (`Typ` stands for the
Go field `Type`, a Lean keyword.) -/
structure Result where
  Name : List Char
  Value : List Char
  Typ : List Char
  Count : Nat
deriving DecidableEq

/-- A YAML node as far as the engine reads it: scalar value and line
comment, sequence elements with style flag and a line comment of its own,
or mapping fields `(key, key line comment, value)`.  Nil nodes do not occur
in this model (the visitors' nil guards are identities). -/
inductive YNode where
  | scalar (value lineComment : List Char)
  | seq (elems : List YNode) (flow : Bool) (lineComment : List Char)
  | map (fields : List (List Char × List Char × YNode))

/-- `ListSetters` — the discovery registry.  The two Go maps are modelled
as association lists keyed by `Name` (entry order is insertion order; Go
map iteration order is abstracted where it matters, see `getResultsOn`). -/
structure ListSetters where
  ScalarSetters : List ScalarSetter
  ArraySetters : List ArraySetter
  Warnings : List (List Char)
  filePath : List Char
deriving DecidableEq

/-- `New()`. -/
def LSNew : ListSetters := ⟨[], [], [], []⟩

/-- Create-or-increment on the scalar map: `visitScalar`'s per-name step
(`Count++` when the name exists, else a fresh entry with count 1). -/
def scalUpsert : List ScalarSetter → List Char → List Char → List ScalarSetter
  | [], n, v => [⟨n, v, 1⟩]
  | s :: rest, n, v =>
    if s.Name = n then { s with Count := s.Count + 1 } :: rest
    else s :: scalUpsert rest n v

/-- Create-or-increment on the array map: `visitMapping`'s per-name step. -/
def arrUpsert : List ArraySetter → List Char → List (List Char) → List ArraySetter
  | [], n, vs => [⟨n, vs, 1⟩]
  | s :: rest, n, vs =>
    if s.Name = n then { s with Count := s.Count + 1 } :: rest
    else s :: arrUpsert rest n vs

/-- Plain map assignment (seeding overwrites): `ls.ScalarSetters[name] = ...`. -/
def seedAssignScal : List ScalarSetter → List Char → List Char → List ScalarSetter
  | [], n, v => [⟨n, v, 0⟩]
  | s :: rest, n, v => if s.Name = n then ⟨n, v, 0⟩ :: rest else s :: seedAssignScal rest n v

/-- Plain map assignment (seeding overwrites): `ls.ArraySetters[name] = ...`. -/
def seedAssignArr : List ArraySetter → List Char → List (List Char) → List ArraySetter
  | [], n, vs => [⟨n, vs, 0⟩]
  | s :: rest, n, vs => if s.Name = n then ⟨n, vs, 0⟩ :: rest else s :: seedAssignArr rest n vs

/-- `visitScalar` on a scalar node with the given line comment and value:
extract the marker pattern, resolve it against the value, and
create-or-increment a scalar setter for each binding. -/
def visitScalar (ls : ListSetters) (lineComment value : List Char) : ListSetters :=
  let setterPattern := extractSetterPattern lineComment
  if setterPattern = [] then ls
  else
    { ls with
      ScalarSetters :=
        (currentSetterValues setterPattern value).foldl
          (fun m pr => scalUpsert m pr.1 pr.2) ls.ScalarSetters }

/-- The scalar text `values.YNode().Value` of a sequence element (empty for
non-scalar elements). -/
def elemText : YNode → List Char
  | .scalar v _ => v
  | _ => []

/-- Go `sort.Strings`: byte-wise lexicographic string order. -/
def goStrLt : List Char → List Char → Bool
  | [], [] => false
  | [], _ :: _ => true
  | _ :: _, [] => false
  | a :: as, b :: bs =>
    if a.toNat < b.toNat then true
    else if b.toNat < a.toNat then false
    else goStrLt as bs

/-- Stable insertion used to model Go's sorts: insert `a` after every
element strictly less than it, before the first element not less than it
(equal elements keep their original relative order when the whole list is
folded from the right). -/
def insertStable (less : α → α → Bool) (a : α) : List α → List α
  | [] => [a]
  | b :: l => if less b a then b :: insertStable less a l else a :: b :: l

/-- A stable sort (`sort.Strings` / `sort.SliceStable` at contract level:
sorted output, equal elements in input order). -/
def sliceStableSort (less : α → α → Bool) (l : List α) : List α :=
  l.foldr (insertStable less) []

def sortStrings (l : List (List Char)) : List (List Char) := sliceStableSort goStrLt l

/-- One field step of `visitMapping`'s `VisitFields` callback: only
sequence-valued fields whose effective line comment (the key's, or the
value's for flow style) carries the marker create-or-increment an array
setter named by the cleaned pattern, valued by the sorted element texts. -/
def visitMappingField (ls : ListSetters) (f : List Char × List Char × YNode) : ListSetters :=
  match f.2.2 with
  | .seq elems flow seqComment =>
    let nodeValues := sortStrings (elems.map elemText)
    let linecomment := if flow then seqComment else f.2.1
    let setterPattern := extractSetterPattern linecomment
    if setterPattern = [] then ls
    else { ls with ArraySetters := arrUpsert ls.ArraySetters (clean setterPattern) nodeValues }
  | _ => ls

/-- `visitMapping` on a mapping node: fold the field rule over its fields. -/
def visitMapping (ls : ListSetters) (fields : List (List Char × List Char × YNode)) : ListSetters :=
  fields.foldl visitMappingField ls

/-- Modelled from the spec (§4.4 classification) and the external kyaml
library: `getArraySetterValues` = `yaml.Parse` + `Elements` + element
rendering with newlines stripped.  A (trimmed) flow sequence literal
`[x, y]` parses to its trimmed element texts; anything else is not a
sequence.  (Only the success/failure split and the element list are relied
on by the engine.) -/
def splitComma : List Char → List (List Char)
  | [] => [[]]
  | c :: cs =>
    if c = ',' then [] :: splitComma cs
    else
      match splitComma cs with
      | g :: gs => (c :: g) :: gs
      | [] => [[c]]

/-- Modelled from the spec: see `splitComma`'s comment. -/
def getArraySetterValues (sv : List Char) : Option (List (List Char)) :=
  let t := goTrimSpace sv
  match t with
  | '[' :: rest =>
    match rest.reverse with
    | ']' :: mid =>
      let inner := mid.reverse
      if goTrimSpace inner = [] then some []
      else some ((splitComma inner).map goTrimSpace)
    | _ => none
  | _ => none

/-- One pair of `addKptfileSetters`: an fn-config value that parses as a
sequence seeds an array setter, otherwise a scalar setter, both count 0
(plain assignment). -/
def seedPair (ls : ListSetters) (pr : List Char × List Char) : ListSetters :=
  match getArraySetterValues pr.2 with
  | some v => { ls with ArraySetters := seedAssignArr ls.ArraySetters pr.1 v }
  | none => { ls with ScalarSetters := seedAssignScal ls.ScalarSetters pr.1 pr.2 }

/-- `addKptfileSetters`: seed the registry from the fn-config name/value
pairs. -/
def addKptfileSetters (ls : ListSetters) (s : List (List Char × List Char)) : ListSetters :=
  s.foldl seedPair ls

/-- One registry operation the tree walker performs, in traversal order:
a `visitScalar` call on a scalar leaf, or a `visitMapping` call on a
mapping node's fields. -/
inductive RegOp where
  | scal (lineComment value : List Char)
  | arrMap (fields : List (List Char × List Char × YNode))

def applyOp (ls : ListSetters) : RegOp → ListSetters
  | .scal c v => visitScalar ls c v
  | .arrMap fs => visitMapping ls fs

def applyOps (ls : ListSetters) (ops : List RegOp) : ListSetters :=
  ops.foldl applyOp ls

mutual
/-- Modelled from the spec: the tree walker `accept` (declared in this
package but outside the provided source) per §4.3 — depth-first, visiting
every mapping node (`visitMapping`) before recursing into its field values,
every sequence's elements in order, and every scalar leaf (`visitScalar`);
here as the visit sequence it generates. -/
def visitOrder : YNode → List RegOp
  | .scalar v c => [.scal c v]
  | .seq elems _ _ => visitOrderList elems
  | .map fields => .arrMap fields :: visitOrderFields fields

def visitOrderList : List YNode → List RegOp
  | [] => []
  | n :: rest => visitOrder n ++ visitOrderList rest

def visitOrderFields : List (List Char × List Char × YNode) → List RegOp
  | [] => []
  | f :: rest => visitOrder f.2.2 ++ visitOrderFields rest
end

/-- Modelled from the spec: `accept(ls, node)` = perform the node's visit
sequence on the registry. -/
def walkNode (ls : ListSetters) (y : YNode) : ListSetters :=
  applyOps ls (visitOrder y)

def walkDocs (ls : ListSetters) (docs : List YNode) : ListSetters :=
  docs.foldl walkNode ls

/-- A pipeline mutator declaration (the fields of `kptv1.Fn` the engine
reads). -/
structure FnSpec where
  Image : List Char
  ConfigMap : Option (List (List Char × List Char))
  ConfigPath : List Char

structure PipelineSpec where
  Mutators : List FnSpec

structure KptFile where
  Pipeline : Option PipelineSpec

/-- A resource node as the engine reads it: its path annotation, its parse
as a Kptfile (when it is one; `none` models a `ReadFile` failure), its
ConfigMap-style data map, and its field tree. -/
structure RNode where
  pathAnn : List Char
  kptfile : Option KptFile
  dataMap : List (List Char × List Char)
  body : YNode

/-- An error of the discovery pass: a recoverable `ErrSetterDiscovery`, or
any other (fatal) error. -/
inductive DiscErr where
  | discovery (message : List Char)
  | fatal (message : List Char)

def kptFileNameL : List Char := ("Kptfile").data

def msgNoKptfile : List Char :=
  ("unable to find Kptfile, please include --include-meta-resources flag if a Kptfile is present").data

def msgNoPipeline : List Char :=
  ("unable to find Pipeline declaration in Kptfile").data

def msgNoApplySetters : List Char :=
  ("unable to find apply-setters fn in Kptfile Pipeline.Mutators").data

def msgNoConfig : List Char :=
  ("unable to find ConfigMap or ConfigPath fnConfig for apply-setters").data

/-- `findSetterNode` error text (apostrophe elided from the Go message). -/
def msgNoSetterFile (path : List Char) : List Char :=
  ("file ").data ++ path ++
  (" does not exist, please ensure the file specified in configPath exists and retry").data

/-- `FindKptfile`: the node whose path annotation is `Kptfile`; a
recoverable error when absent, a fatal (wrapped, non-discovery) error when
it cannot be read. -/
def FindKptfile (nodes : List RNode) : Except DiscErr KptFile :=
  match nodes.find? (fun nd => nd.pathAnn == kptFileNameL) with
  | none => .error (.discovery msgNoKptfile)
  | some nd =>
    match nd.kptfile with
    | some kf => .ok kf
    | none => .error (.fatal (("unable to read Kptfile").data))

/-- `findSetterNode`: the node with the given path annotation; its absence
is a plain (fatal, non-discovery) error. -/
def findSetterNode (nodes : List RNode) (path : List Char) : Except DiscErr RNode :=
  match nodes.find? (fun nd => nd.pathAnn == path) with
  | some nd => .ok nd
  | none => .error (.fatal (msgNoSetterFile path))

/-- `strings.Contains`. -/
def goContains (sub : List Char) : List Char → Bool
  | [] => isPre sub []
  | c :: t => isPre sub (c :: t) || goContains sub t

/-- The first mutator whose image contains `apply-setters` (the Go loop
`continue`s all others and returns at the first hit). -/
def findApplySettersFn (ms : List FnSpec) : Option FnSpec :=
  ms.find? (fun fn => goContains (("apply-setters").data) fn.Image)

/-- `FindSettersFromKptfile`: locate the setter fn-config declared by the
Kptfile pipeline. -/
def FindSettersFromKptfile (nodes : List RNode) : Except DiscErr (List (List Char × List Char)) :=
  match FindKptfile nodes with
  | .error e => .error e
  | .ok kf =>
    match kf.Pipeline with
    | none => .error (.discovery msgNoPipeline)
    | some pl =>
      match findApplySettersFn pl.Mutators with
      | none => .error (.discovery msgNoApplySetters)
      | some fn =>
        match fn.ConfigMap with
        | some m => .ok m
        | none =>
          if fn.ConfigPath ≠ [] then
            match findSetterNode nodes fn.ConfigPath with
            | .error e => .error e
            | .ok nd => .ok nd.dataMap
          else .error (.discovery msgNoConfig)

def pushWarning (ls : ListSetters) (m : List Char) : ListSetters :=
  { ls with Warnings := ls.Warnings ++ [m] }

/-- One iteration of `Filter`'s node loop: record the file path, then walk
the node's tree (`accept`). -/
def walkRNode (ls : ListSetters) (nd : RNode) : ListSetters :=
  applyOps { ls with filePath := nd.pathAnn } (visitOrder nd.body)

def walkAll (ls : ListSetters) (nodes : List RNode) : ListSetters :=
  nodes.foldl walkRNode ls

/-- `Filter`: seed from the Kptfile — a discovery error becomes a Warning
and seeding is skipped, any other error aborts the pass — then walk every
node.  (In Go the error return also carries `nodes`; only the error is
modelled on that branch.) -/
def Filter (ls : ListSetters) (nodes : List RNode) : Except (List Char) (List RNode × ListSetters) :=
  match FindSettersFromKptfile nodes with
  | .error (.fatal m) => .error m
  | .error (.discovery m) => .ok (nodes, walkAll (pushWarning ls m) nodes)
  | .ok s => .ok (nodes, walkAll (addKptfileSetters ls s) nodes)

def ArraySetterTypeL : List Char := ("list").data

def ScalarSetterTypeL : List Char := ("string").data

/-- `fmt.Sprint` of a `[]string`: elements joined by spaces in brackets. -/
def dispList (vs : List (List Char)) : List Char :=
  '[' :: (List.intercalate [' '] vs ++ [']'])

def toArrResult (a : ArraySetter) : Result :=
  ⟨a.Name, dispList a.Values, ArraySetterTypeL, a.Count⟩

def toScalResult (s : ScalarSetter) : Result :=
  ⟨s.Name, s.Value, ScalarSetterTypeL, s.Count⟩

def resLess (x y : Result) : Bool := goStrLt x.Name y.Name

/-- `GetResults` with the iteration order of the two Go maps made explicit:
array entries in iteration order `arrEntries`, then scalar entries in
iteration order `scalEntries`, stable-sorted by name
(`sort.SliceStable`). -/
def getResultsOn (arrEntries : List ArraySetter) (scalEntries : List ScalarSetter) : List Result :=
  sliceStableSort resLess (arrEntries.map toArrResult ++ scalEntries.map toScalResult)

/-- `GetResults` at the registry's insertion order (one admissible Go map
iteration order). -/
def GetResults (ls : ListSetters) : List Result :=
  getResultsOn ls.ArraySetters ls.ScalarSetters

/-- Splice captured group values back into the expression's skeleton: each
literal character stays, each group is replaced by its capture. -/
def renderItems : List Item → List (List Char) → List Char
  | [], _ => []
  | Item.chr c :: items, caps => c :: renderItems items caps
  | Item.grp :: items, caps => caps.headD [] ++ renderItems items caps.tail

def grpCount (items : List Item) : Nat := items.countP (fun i => i == Item.grp)

/-- Map lookup `b[n]` on an association list. -/
def lookupA (n : List Char) : List (List Char × List Char) → Option (List Char)
  | [] => none
  | p :: rest => if p.1 = n then some p.2 else lookupA n rest

/-- Pure string substitution of bound values into a pattern's placeholder
occurrences: each literal segment stays, each placeholder `$\x7bname\x7d` is
replaced by the binding of its cleaned name. -/
def substSegs : List Seg → List (List Char × List Char) → List Char
  | [], _ => []
  | .lit s :: rest, b => s ++ substSegs rest b
  | .ph t :: rest, b => (lookupA (clean t) b).getD [] ++ substSegs rest b

def substPattern (p : List Char) (b : List (List Char × List Char)) : List Char :=
  substSegs (tokenize p) b

/-- The flat text of a segment list (inverse of tokenisation). -/
def segsText : List Seg → List Char
  | [] => []
  | .lit s :: rest => s ++ segsText rest
  | .ph t :: rest => t ++ segsText rest

/-- The array-setter mark a mapping field produces, if any: exactly the
guard chain of `visitMappingField`. -/
def fieldArrayMark (f : List Char × List Char × YNode) : Option (List Char × List (List Char)) :=
  match f.2.2 with
  | .seq elems flow seqComment =>
    let linecomment := if flow then seqComment else f.2.1
    let setterPattern := extractSetterPattern linecomment
    if setterPattern = [] then none
    else some (clean setterPattern, sortStrings (elems.map elemText))
  | _ => none

def opArrayMarks : RegOp → List (List Char × List (List Char))
  | .scal _ _ => []
  | .arrMap fs => fs.filterMap fieldArrayMark

def opsArrayMarks : List RegOp → List (List Char × List (List Char))
  | [] => []
  | op :: rest => opArrayMarks op ++ opsArrayMarks rest

def visitOrderDocs : List YNode → List RegOp
  | [] => []
  | d :: rest => visitOrder d ++ visitOrderDocs rest

/-- The `(name, sorted values)` marks of all marked sequence-valued mapping
fields of a document set, in traversal order. -/
def docsArrayMarks (docs : List YNode) : List (List Char × List (List Char)) :=
  opsArrayMarks (visitOrderDocs docs)

def findScal (n : List Char) (m : List ScalarSetter) : Option ScalarSetter :=
  m.find? (fun s => s.Name == n)

def findArr (n : List Char) (m : List ArraySetter) : Option ArraySetter :=
  m.find? (fun s => s.Name == n)

/-- Well-formedness of the registry model: entry names are distinct within
each map (true of any Go map). -/
def RegWF (ls : ListSetters) : Prop :=
  (ls.ScalarSetters.map ScalarSetter.Name).Nodup ∧ (ls.ArraySetters.map ArraySetter.Name).Nodup

/-- Strict order on results by (name, type tag); antisymmetric on any
result list a well-formed registry produces. -/
def lexLT (x y : Result) : Prop :=
  goStrLt x.Name y.Name = true ∨ (x.Name = y.Name ∧ goStrLt x.Typ y.Typ = true)

theorem isPre_append_self (p t : List Char) : isPre p (p ++ t) = true := by
  induction p with
  | nil => rfl
  | cons a as ih => simp [isPre, ih]

theorem goTrimSpace_all_space (ws : List Char) (h : ws.all goIsSpace = true) :
    goTrimSpace ws = [] := by
  have h1 : ws.dropWhile goIsSpace = [] := by
    rw [List.dropWhile_eq_nil_iff]
    intro x hx
    exact (List.all_eq_true.mp h) x hx
  simp [goTrimSpace, h1]

theorem extract_marker_space (ws : List Char) (h : ws.all goIsSpace = true) :
    extractSetterPattern (sciL ++ ws) = [] := by
  rw [extractSetterPattern, isPre_append_self]
  simp only [if_true, goTrimPre, isPre_append_self, List.drop_left]
  exact goTrimSpace_all_space ws h

/-- Claim C10: a comment without the exact marker, or with the marker
followed only by whitespace, yields an empty pattern and the field is
skipped: neither visitor changes the registry. -/
theorem c10_marker_gate (comment : List Char)
    (h : isPre sciL comment = false ∨
      ∃ ws, comment = sciL ++ ws ∧ ws.all goIsSpace = true) :
    extractSetterPattern comment = [] ∧
    (∀ ls value, visitScalar ls comment value = ls) ∧
    (∀ ls key sc elems,
      visitMappingField ls (key, comment, YNode.seq elems false sc) = ls) ∧
    (∀ ls key kc elems,
      visitMappingField ls (key, kc, YNode.seq elems true comment) = ls) := by
  have hext : extractSetterPattern comment = [] := by
    rcases h with h | ⟨ws, rfl, hws⟩
    · simp [extractSetterPattern, h]
    · exact extract_marker_space ws hws
  refine ⟨hext, ?_, ?_, ?_⟩
  · intro ls value
    simp [visitScalar, hext]
  · intro ls key sc elems
    simp [visitMappingField, hext]
  · intro ls key kc elems
    simp [visitMappingField, hext]

theorem c10_marker_gate_witness :
    extractSetterPattern (("# kpt-set:$\x7bx\x7d").data) = [] ∧
    visitScalar LSNew (("# kpt-set:$\x7bx\x7d").data) (("3").data) = LSNew ∧
    visitMappingField LSNew ([], ("# kpt-set:$\x7bx\x7d").data, YNode.seq [] false []) = LSNew := by
  have h := c10_marker_gate (("# kpt-set:$\x7bx\x7d").data) (Or.inl (by decide))
  exact ⟨h.1, h.2.1 LSNew (("3").data), h.2.2.1 LSNew [] [] []⟩

theorem csv_no_placeholder (p v : List Char) (h : unresolvedSetters p = []) :
    currentSetterValues p v = [] := by
  rw [currentSetterValues, h]
  cases hf : findFrom (buildItems p) v with
  | none => rfl
  | some r => simp [bindPairs]

/-- Claim C2 (amended): a scalar field whose marker pattern contains no
placeholders yields no binding at all — no scalar setter is created or
incremented (the pattern is not treated as a direct setter name). -/
theorem c2_no_placeholder_skip (ls : ListSetters) (comment value : List Char)
    (h : unresolvedSetters (extractSetterPattern comment) = []) :
    visitScalar ls comment value = ls := by
  rw [visitScalar]
  split
  · rfl
  · rw [csv_no_placeholder _ _ h]
    rfl

/-- Claim C2, counterexample to the claim as stated: the field value `bar`
carries the placeholder-free pattern `foo`, yet no scalar setter named
`foo` (or any setter at all) is created. -/
theorem c2_counterexample :
    (visitScalar LSNew (("# kpt-set: foo").data) (("bar").data)).ScalarSetters = [] := by
  decide

theorem c2_no_placeholder_skip_witness :
    unresolvedSetters (extractSetterPattern (("# kpt-set: foo").data)) = [] ∧
    visitScalar LSNew (("# kpt-set: foo").data) (("bar").data) = LSNew :=
  ⟨by decide, c2_no_placeholder_skip LSNew (("# kpt-set: foo").data) (("bar").data) (by decide)⟩

theorem bindPairs_of_mem_nil (pairs : List (List Char × List Char))
    (acc : List (List Char × List Char)) (h : ∃ pr ∈ pairs, pr.2 = []) :
    bindPairs acc pairs = [] := by
  induction pairs generalizing acc with
  | nil => obtain ⟨pr, hpr, _⟩ := h; cases hpr
  | cons hd tl ih =>
    obtain ⟨pr, hpr, hnil⟩ := h
    rw [show hd = (hd.1, hd.2) from rfl, bindPairs]
    rcases List.mem_cons.mp hpr with rfl | hmem
    · simp [hnil]
    · split
      · rfl
      · exact ih _ ⟨pr, hmem, hnil⟩

theorem zip_mem_right (ns : List (List Char)) (caps : List (List Char))
    (c : List Char) (hc : c ∈ caps) (hl : ns.length = caps.length) :
    ∃ n, (n, c) ∈ List.zip ns caps := by
  induction caps generalizing ns with
  | nil => cases hc
  | cons hd tl ih =>
    cases ns with
    | nil => cases hl
    | cons n ns' =>
      rcases List.mem_cons.mp hc with rfl | hmem
      · exact ⟨n, List.mem_cons_self _ _⟩
      · obtain ⟨n', hn'⟩ := ih ns' hmem (by simpa using hl)
        exact ⟨n', List.mem_cons_of_mem _ hn'⟩

/-- Claim C5: whenever the generated expression matches and any capture
group captures the empty string, `currentSetterValues` returns the empty
mapping — never a partial binding. -/
theorem c5_empty_capture_reject (p v m : List Char) (caps : List (List Char))
    (hf : findFrom (buildItems p) v = some (m, caps)) (he : [] ∈ caps) :
    currentSetterValues p v = [] := by
  rw [currentSetterValues, hf]
  dsimp only
  split
  · rename_i hlen
    apply bindPairs_of_mem_nil
    obtain ⟨n, hn⟩ := zip_mem_right ((unresolvedSetters p).map clean) caps [] he
      (by simpa using hlen.symm)
    exact ⟨(n, []), hn, rfl⟩
  · rfl

theorem c5_empty_capture_reject_witness :
    currentSetterValues (("foo.$\x7ba\x7d.$\x7bb\x7d").data) (("foo..bar").data) = [] :=
  c5_empty_capture_reject (("foo.$\x7ba\x7d.$\x7bb\x7d").data) (("foo..bar").data)
    (("foo..bar").data) [[], ("bar").data] (by decide) (by decide)

theorem splitBrace_no_brace (name : List Char) (h : ∀ c ∈ name, c ≠ '\x7d') :
    splitBrace (name ++ ['\x7d']) = some (name, []) := by
  induction name with
  | nil => rfl
  | cons c cs ih =>
    have hc : c ≠ '\x7d' := h c (List.mem_cons_self _ _)
    have ih' := ih (fun x hx => h x (List.mem_cons_of_mem _ hx))
    simp only [List.cons_append, splitBrace, if_neg hc, List.append_eq]
    rw [ih']
    rfl

theorem scanToken_single (name : List Char) (h : ∀ c ∈ name, c ≠ '\x7d') :
    scanToken ('$' :: '\x7b' :: (name ++ ['\x7d'])) =
      some ([], '$' :: '\x7b' :: (name ++ ['\x7d']), []) := by
  rw [scanToken, if_pos ⟨rfl, rfl⟩, splitBrace_no_brace name h]

theorem tokenizeF_nil (fuel : Nat) : tokenizeF fuel [] = [Seg.lit []] := by
  cases fuel <;> rfl

theorem tokenize_single (name : List Char) (h : ∀ c ∈ name, c ≠ '\x7d') :
    tokenize ('$' :: '\x7b' :: (name ++ ['\x7d'])) =
      [Seg.lit [], Seg.ph ('$' :: '\x7b' :: (name ++ ['\x7d'])), Seg.lit []] := by
  rw [tokenize, tokenizeF, scanToken_single name h]
  dsimp only
  rw [tokenizeF_nil]

theorem urs_single (name : List Char) (h : ∀ c ∈ name, c ≠ '\x7d') :
    unresolvedSetters ('$' :: '\x7b' :: (name ++ ['\x7d'])) =
      ['$' :: '\x7b' :: (name ++ ['\x7d'])] := by
  rw [unresolvedSetters, tokenize_single name h]
  rfl

theorem replaceTokF_nil (fuel : Nat) (tok : List Char) : replaceTokF fuel [] tok = [] := by
  cases fuel with
  | zero => rfl
  | succ f =>
    rw [replaceTokF.eq_def]
    dsimp only
    cases tok with
    | nil => simp
    | cons c cs => simp [itemsOfString, List.isPrefixOf]

theorem replaceTok_self (tok : List Char) (h : tok ≠ []) :
    replaceTok (itemsOfString tok) tok = [Item.grp] := by
  rw [replaceTok, replaceTokF.eq_def]
  dsimp only
  rw [if_pos ⟨h, List.isPrefixOf_iff_prefix.mpr (List.prefix_refl _)⟩]
  rw [show (itemsOfString tok).drop tok.length = [] by
    rw [show tok.length = (itemsOfString tok).length by simp [itemsOfString]]
    exact List.drop_length _]
  rw [replaceTokF_nil]

theorem buildItems_single (name : List Char) (h : ∀ c ∈ name, c ≠ '\x7d') :
    buildItems ('$' :: '\x7b' :: (name ++ ['\x7d'])) = [Item.grp] := by
  rw [buildItems, urs_single name h, List.foldl_cons, List.foldl_nil]
  exact replaceTok_self _ (by simp)

theorem grpSplits_full (v : List Char) (hnl : ∀ c ∈ v, c ≠ '\n') :
    grpSplits v = (v, []) ::
      (List.range v.length).reverse.map (fun k => (v.take k, v.drop k)) := by
  have htw : v.takeWhile (fun c => !(c == '\n')) = v := by
    induction v with
    | nil => rfl
    | cons c cs ih =>
      rw [List.takeWhile_cons]
      have hcb : (!(c == '\n')) = true := by
        simp [hnl c (List.mem_cons_self _ _)]
      rw [hcb]
      simp only [if_true]
      rw [ih (fun x hx => hnl x (List.mem_cons_of_mem _ hx))]
  rw [grpSplits, htw, List.range_succ, List.reverse_append]
  simp [List.take_length, List.drop_length]

theorem matchCore_grp_full (v : List Char) (hnl : ∀ c ∈ v, c ≠ '\n') :
    matchCore [Item.grp] v = some ([v], v, []) := by
  rw [matchCore, grpSplits_full v hnl, firstSome]
  simp [matchCore]

theorem findFrom_grp (v : List Char) (hnl : ∀ c ∈ v, c ≠ '\n') :
    findFrom [Item.grp] v = some (v, [v]) := by
  cases v with
  | nil => rfl
  | cons c ts =>
    rw [findFrom, findFromF, matchCore_grp_full _ hnl]

theorem goIsSpace_dollar : goIsSpace '$' = false := by decide

theorem goIsSpace_rbrace : goIsSpace '\x7d' = false := by decide

theorem clean_token (name : List Char) :
    clean ('$' :: '\x7b' :: (name ++ ['\x7d'])) = name := by
  have htrim : goTrimSpace ('$' :: '\x7b' :: (name ++ ['\x7d'])) =
      '$' :: '\x7b' :: (name ++ ['\x7d']) := by
    rw [goTrimSpace]
    rw [List.dropWhile_cons_of_neg (by rw [goIsSpace_dollar]; exact Bool.false_ne_true)]
    rw [show ('$' :: '\x7b' :: (name ++ ['\x7d'])).reverse =
      '\x7d' :: (name.reverse ++ ['\x7b', '$']) by simp]
    rw [List.dropWhile_cons_of_neg (by rw [goIsSpace_rbrace]; exact Bool.false_ne_true)]
    simp
  rw [clean, htrim]
  rw [goTrimPre, if_pos (by simp [isPre])]
  rw [show ('$' :: '\x7b' :: (name ++ ['\x7d'])).drop (['$', '\x7b'] : List Char).length =
    name ++ ['\x7d'] by rfl]
  rw [goTrimSuf, if_pos (by simp [isSuf, isPre])]
  rw [show (name ++ ['\x7d']).length - (['\x7d'] : List Char).length = name.length by
    simp]
  exact List.take_left' rfl

/-- Claim C7 (amended): for every pattern that is exactly one placeholder
spanning the whole pattern and every non-empty value containing no newline,
`currentSetterValues` returns the singleton binding of the placeholder name
to the whole value.  (A value containing a newline is truncated at it by
the generated `.*` group, see the counterexample.) -/
theorem c7_single_placeholder (name v : List Char)
    (hb : ∀ c ∈ name, c ≠ '\x7d') (hv : v ≠ []) (hnl : ∀ c ∈ v, c ≠ '\n') :
    currentSetterValues ('$' :: '\x7b' :: (name ++ ['\x7d'])) v = [(name, v)] := by
  rw [currentSetterValues, buildItems_single name hb, findFrom_grp v hnl]
  dsimp only
  rw [urs_single name hb]
  rw [if_pos (show ([v] : List (List Char)).length =
    (['$' :: '\x7b' :: (name ++ ['\x7d'])] : List (List Char)).length from rfl)]
  rw [show (List.map clean ['$' :: '\x7b' :: (name ++ ['\x7d'])]).zip [v] =
    [(name, v)] by rw [List.map_singleton, clean_token]; rfl]
  rw [bindPairs, if_neg hv]
  rfl

/-- Claim C7, counterexample to the claim as stated: a non-empty value
containing a newline is not bound whole — `$\x7bname\x7d` against `a\nb`
binds only `a` (Go regexp `.` does not match a newline). -/
theorem c7_counterexample :
    (("a\nb").data : List Char) ≠ [] ∧
    currentSetterValues (("$\x7bname\x7d").data) (("a\nb").data) ≠
      [(("name").data, ("a\nb").data)] ∧
    currentSetterValues (("$\x7bname\x7d").data) (("a\nb").data) =
      [(("name").data, ("a").data)] := by
  refine ⟨by decide, by decide, by decide⟩

theorem c7_single_placeholder_witness :
    currentSetterValues ('$' :: '\x7b' :: ((("image").data) ++ ['\x7d'])) (("nginx").data) =
      [((("image").data), (("nginx").data))] :=
  c7_single_placeholder (("image").data) (("nginx").data) (by decide) (by decide) (by decide)

theorem scalUpsert_find_self (m : List ScalarSetter) (n v : List Char) :
    findScal n (scalUpsert m n v) =
      match findScal n m with
      | some e => some { e with Count := e.Count + 1 }
      | none => some ⟨n, v, 1⟩ := by
  induction m with
  | nil => simp [findScal, scalUpsert]
  | cons s rest ih =>
    by_cases hs : s.Name = n
    · simp [findScal, scalUpsert, hs]
    · simp only [scalUpsert, if_neg hs, findScal, List.find?]
      rw [show (s.Name == n) = false by simp [hs]]
      exact ih

theorem scalUpsert_find_other (m : List ScalarSetter) (k v n : List Char) (h : k ≠ n) :
    findScal n (scalUpsert m k v) = findScal n m := by
  induction m with
  | nil => simp [findScal, scalUpsert, h]
  | cons s rest ih =>
    by_cases hs : s.Name = k
    · simp only [scalUpsert, if_pos hs, findScal, List.find?]
      rw [show (({ s with Count := s.Count + 1 } : ScalarSetter).Name == n) = (s.Name == n) by rfl]
      rw [show (s.Name == n) = false by rw [hs]; simp [h]]
    · simp only [scalUpsert, if_neg hs, findScal, List.find?]
      cases hb : (s.Name == n) <;> simp [hb] <;> exact ih

theorem arrUpsert_find_self (m : List ArraySetter) (n : List Char) (vs : List (List Char)) :
    findArr n (arrUpsert m n vs) =
      match findArr n m with
      | some e => some { e with Count := e.Count + 1 }
      | none => some ⟨n, vs, 1⟩ := by
  induction m with
  | nil => simp [findArr, arrUpsert]
  | cons s rest ih =>
    by_cases hs : s.Name = n
    · simp [findArr, arrUpsert, hs]
    · simp only [arrUpsert, if_neg hs, findArr, List.find?]
      rw [show (s.Name == n) = false by simp [hs]]
      exact ih

theorem arrUpsert_find_other (m : List ArraySetter) (k : List Char) (vs : List (List Char))
    (n : List Char) (h : k ≠ n) :
    findArr n (arrUpsert m k vs) = findArr n m := by
  induction m with
  | nil => simp [findArr, arrUpsert, h]
  | cons s rest ih =>
    by_cases hs : s.Name = k
    · simp only [arrUpsert, if_pos hs, findArr, List.find?]
      rw [show (({ s with Count := s.Count + 1 } : ArraySetter).Name == n) = (s.Name == n) by rfl]
      rw [show (s.Name == n) = false by rw [hs]; simp [h]]
    · simp only [arrUpsert, if_neg hs, findArr, List.find?]
      cases hb : (s.Name == n) <;> simp [hb] <;> exact ih

theorem foldl_scalUpsert_find (pairs : List (List Char × List Char))
    (m : List ScalarSetter) (n : List Char) (e : ScalarSetter)
    (h : findScal n m = some e) :
    ∃ j, findScal n (pairs.foldl (fun acc pr => scalUpsert acc pr.1 pr.2) m) =
      some ⟨e.Name, e.Value, e.Count + j⟩ := by
  induction pairs generalizing m e with
  | nil => exact ⟨0, by simpa using h⟩
  | cons pr rest ih =>
    rw [List.foldl_cons]
    by_cases hk : pr.1 = n
    · have hstep : findScal n (scalUpsert m pr.1 pr.2) = some { e with Count := e.Count + 1 } := by
        rw [hk, scalUpsert_find_self, h]
      obtain ⟨j, hj⟩ := ih _ _ hstep
      exact ⟨1 + j, by rw [hj]; simp [Nat.add_assoc]⟩
    · exact ih _ _ (by rw [scalUpsert_find_other _ _ _ _ hk]; exact h)

theorem visitScalar_arr_find (ls : ListSetters) (comment value n : List Char)
    (e : ScalarSetter) (h : findScal n ls.ScalarSetters = some e) :
    ∃ j, findScal n (visitScalar ls comment value).ScalarSetters =
      some ⟨e.Name, e.Value, e.Count + j⟩ := by
  rw [visitScalar]
  split
  · exact ⟨0, by simpa using h⟩
  · exact foldl_scalUpsert_find _ _ _ _ h

theorem visitMappingField_arr_find (ls : ListSetters) (f : List Char × List Char × YNode)
    (n : List Char) (a : ArraySetter) (h : findArr n ls.ArraySetters = some a) :
    ∃ j, findArr n (visitMappingField ls f).ArraySetters =
      some ⟨a.Name, a.Values, a.Count + j⟩ := by
  cases hv : f.2.2 with
  | scalar v c =>
    simp only [visitMappingField, hv]
    exact ⟨0, by simpa using h⟩
  | map fs =>
    simp only [visitMappingField, hv]
    exact ⟨0, by simpa using h⟩
  | seq elems flow sc =>
    simp only [visitMappingField, hv]
    by_cases hsp : extractSetterPattern (if flow then sc else f.2.1) = []
    · rw [if_pos hsp]
      exact ⟨0, by simpa using h⟩
    · rw [if_neg hsp]
      by_cases hk : clean (extractSetterPattern (if flow then sc else f.2.1)) = n
      · refine ⟨1, ?_⟩
        show findArr n (arrUpsert ls.ArraySetters _ _) = _
        rw [hk, arrUpsert_find_self, h]
      · refine ⟨0, ?_⟩
        show findArr n (arrUpsert ls.ArraySetters _ _) = _
        rw [arrUpsert_find_other _ _ _ _ hk, h]
        simp

theorem visitMapping_arr_find (fields : List (List Char × List Char × YNode))
    (ls : ListSetters) (n : List Char) (a : ArraySetter)
    (h : findArr n ls.ArraySetters = some a) :
    ∃ j, findArr n (visitMapping ls fields).ArraySetters =
      some ⟨a.Name, a.Values, a.Count + j⟩ := by
  induction fields generalizing ls a with
  | nil => exact ⟨0, by simpa using h⟩
  | cons f rest ih =>
    obtain ⟨j1, h1⟩ := visitMappingField_arr_find ls f n a h
    obtain ⟨j2, h2⟩ := ih (visitMappingField ls f) _ h1
    exact ⟨j1 + j2, by rw [visitMapping, List.foldl_cons] at *; rw [h2]; simp [Nat.add_assoc]⟩

/-- Claim C4: once a setter name is stored, later walker visits that
resolve to it in the same mapping only increment its count: the stored
scalar `Value` (resp. array `Values`) — the first successful binding — is
never overwritten. -/
theorem c4_first_value_wins :
    (∀ ls comment value n e, findScal n ls.ScalarSetters = some e →
      ∃ j, findScal n (visitScalar ls comment value).ScalarSetters =
        some ⟨e.Name, e.Value, e.Count + j⟩) ∧
    (∀ ls fields n a, findArr n ls.ArraySetters = some a →
      ∃ j, findArr n (visitMapping ls fields).ArraySetters =
        some ⟨a.Name, a.Values, a.Count + j⟩) :=
  ⟨fun ls c v n e h => visitScalar_arr_find ls c v n e h,
   fun ls fields n a h => visitMapping_arr_find fields ls n a h⟩

theorem c4_first_value_wins_witness :
    (∃ j, findScal (("x").data)
        (visitScalar ⟨[⟨("x").data, ("1").data, 1⟩], [], [], []⟩
          (("# kpt-set: $\x7bx\x7d").data) (("2").data)).ScalarSetters =
      some ⟨("x").data, ("1").data, 1 + j⟩) ∧
    (∃ j, findArr (("l").data)
        (visitMapping ⟨[], [⟨("l").data, [("a").data], 1⟩], [], []⟩
          [([], ("# kpt-set: l").data, YNode.seq [] false [])]).ArraySetters =
      some ⟨("l").data, [("a").data], 1 + j⟩) :=
  ⟨c4_first_value_wins.1 ⟨[⟨("x").data, ("1").data, 1⟩], [], [], []⟩
      (("# kpt-set: $\x7bx\x7d").data) (("2").data) (("x").data)
      ⟨("x").data, ("1").data, 1⟩ (by decide),
   c4_first_value_wins.2 ⟨[], [⟨("l").data, [("a").data], 1⟩], [], []⟩
      [([], ("# kpt-set: l").data, YNode.seq [] false [])] (("l").data)
      ⟨("l").data, [("a").data], 1⟩ (by decide)⟩

theorem visitScalar_arrEq (ls : ListSetters) (comment value : List Char) :
    (visitScalar ls comment value).ArraySetters = ls.ArraySetters := by
  rw [visitScalar]
  split <;> rfl

theorem visitMappingField_scalEq (ls : ListSetters) (f : List Char × List Char × YNode) :
    (visitMappingField ls f).ScalarSetters = ls.ScalarSetters := by
  cases hv : f.2.2 with
  | scalar v c => simp only [visitMappingField, hv]
  | map fs => simp only [visitMappingField, hv]
  | seq elems flow sc =>
    simp only [visitMappingField, hv]
    split <;> split <;> rfl

theorem visitMapping_scalEq (ls : ListSetters) (fields : List (List Char × List Char × YNode)) :
    (visitMapping ls fields).ScalarSetters = ls.ScalarSetters := by
  induction fields generalizing ls with
  | nil => rfl
  | cons f rest ih =>
    rw [visitMapping, List.foldl_cons]
    have hrest := ih (visitMappingField ls f)
    rw [visitMapping] at hrest
    rw [hrest, visitMappingField_scalEq]

theorem seedPair_excl (ls : ListSetters) (pr : List Char × List Char) :
    (seedPair ls pr).ScalarSetters = ls.ScalarSetters ∨
      (seedPair ls pr).ArraySetters = ls.ArraySetters := by
  rw [seedPair]
  cases getArraySetterValues pr.2 with
  | some vs => exact Or.inl rfl
  | none => exact Or.inr rfl

/-- Claim C3 (amended): no single registry operation registers a name under
both mappings — scalar-leaf visits never change the array mapping, mapping
visits never change the scalar mapping, and each seeded pair changes
exactly one of the two; but disjointness across operations of different
kinds is not maintained (see the counterexample). -/
theorem c3_kind_separation :
    (∀ ls comment value, (visitScalar ls comment value).ArraySetters = ls.ArraySetters) ∧
    (∀ ls fields, (visitMapping ls fields).ScalarSetters = ls.ScalarSetters) ∧
    (∀ ls pr, (seedPair ls pr).ScalarSetters = ls.ScalarSetters ∨
      (seedPair ls pr).ArraySetters = ls.ArraySetters) :=
  ⟨visitScalar_arrEq, visitMapping_scalEq, seedPair_excl⟩

/-- Claim C3, counterexample to the claim as stated: seeding `foo` as a
scalar and then visiting a sequence-valued field marked `foo` leaves the
name present in both registry mappings at once. -/
theorem c3_counterexample :
    (findScal (("foo").data)
      (visitMapping (addKptfileSetters LSNew [((("foo").data), (("bar").data))])
        [([], ("# kpt-set: foo").data, YNode.seq [] false [])]).ScalarSetters).isSome = true ∧
    (findArr (("foo").data)
      (visitMapping (addKptfileSetters LSNew [((("foo").data), (("bar").data))])
        [([], ("# kpt-set: foo").data, YNode.seq [] false [])]).ArraySetters).isSome = true := by
  refine ⟨by decide, by decide⟩

/-- Claim C6: the four manifest-related discovery failures (no Kptfile, no
Pipeline, no apply-setters mutator, neither ConfigMap nor ConfigPath on it)
are recoverable — `Filter` appends them to `Warnings` and still walks every
document and returns a result — whereas a ConfigPath naming a file absent
from the document set is a fatal error that aborts the pass. -/
theorem c6_warning_vs_fatal :
    (∀ nodes ls m, FindSettersFromKptfile nodes = .error (.discovery m) →
      Filter ls nodes = .ok (nodes, walkAll (pushWarning ls m) nodes)) ∧
    (∀ nodes ls m, FindSettersFromKptfile nodes = .error (.fatal m) →
      Filter ls nodes = .error m) ∧
    (∀ nodes, nodes.find? (fun nd => nd.pathAnn == kptFileNameL) = none →
      FindSettersFromKptfile nodes = .error (.discovery msgNoKptfile)) ∧
    (∀ nodes nd kf, nodes.find? (fun x => x.pathAnn == kptFileNameL) = some nd →
      nd.kptfile = some kf → kf.Pipeline = none →
      FindSettersFromKptfile nodes = .error (.discovery msgNoPipeline)) ∧
    (∀ nodes nd kf pl, nodes.find? (fun x => x.pathAnn == kptFileNameL) = some nd →
      nd.kptfile = some kf → kf.Pipeline = some pl →
      findApplySettersFn pl.Mutators = none →
      FindSettersFromKptfile nodes = .error (.discovery msgNoApplySetters)) ∧
    (∀ nodes nd kf pl fn, nodes.find? (fun x => x.pathAnn == kptFileNameL) = some nd →
      nd.kptfile = some kf → kf.Pipeline = some pl →
      findApplySettersFn pl.Mutators = some fn →
      fn.ConfigMap = none → fn.ConfigPath = [] →
      FindSettersFromKptfile nodes = .error (.discovery msgNoConfig)) ∧
    (∀ nodes nd kf pl fn, nodes.find? (fun x => x.pathAnn == kptFileNameL) = some nd →
      nd.kptfile = some kf → kf.Pipeline = some pl →
      findApplySettersFn pl.Mutators = some fn →
      fn.ConfigMap = none → fn.ConfigPath ≠ [] →
      nodes.find? (fun x => x.pathAnn == fn.ConfigPath) = none →
      FindSettersFromKptfile nodes = .error (.fatal (msgNoSetterFile fn.ConfigPath))) := by
  refine ⟨?_, ?_, ?_, ?_, ?_, ?_, ?_⟩
  · intro nodes ls m h
    rw [Filter, h]
  · intro nodes ls m h
    rw [Filter, h]
  · intro nodes h
    rw [FindSettersFromKptfile, FindKptfile, h]
  · intro nodes nd kf hfind hkf hpl
    rw [FindSettersFromKptfile, FindKptfile, hfind]
    dsimp only
    rw [hkf]
    dsimp only
    rw [hpl]
  · intro nodes nd kf pl hfind hkf hpl hfn
    rw [FindSettersFromKptfile, FindKptfile, hfind]
    dsimp only
    rw [hkf]
    dsimp only
    rw [hpl]
    dsimp only
    rw [hfn]
  · intro nodes nd kf pl fn hfind hkf hpl hfn hcm hcp
    rw [FindSettersFromKptfile, FindKptfile, hfind]
    dsimp only
    rw [hkf]
    dsimp only
    rw [hpl]
    dsimp only
    rw [hfn]
    dsimp only
    rw [hcm]
    dsimp only
    rw [if_neg (by simp [hcp])]
  · intro nodes nd kf pl fn hfind hkf hpl hfn hcm hcp hmiss
    rw [FindSettersFromKptfile, FindKptfile, hfind]
    dsimp only
    rw [hkf]
    dsimp only
    rw [hpl]
    dsimp only
    rw [hfn]
    dsimp only
    rw [hcm]
    dsimp only
    rw [if_pos hcp, findSetterNode, hmiss]

theorem c6_warning_vs_fatal_witness :
    FindSettersFromKptfile [⟨("deploy.yaml").data, none, [], YNode.scalar [] []⟩] =
      .error (.discovery msgNoKptfile) ∧
    Filter LSNew [⟨("deploy.yaml").data, none, [], YNode.scalar [] []⟩] =
      .ok ([⟨("deploy.yaml").data, none, [], YNode.scalar [] []⟩],
        walkAll (pushWarning LSNew msgNoKptfile)
          [⟨("deploy.yaml").data, none, [], YNode.scalar [] []⟩]) :=
  have h3 : FindSettersFromKptfile [⟨("deploy.yaml").data, none, [], YNode.scalar [] []⟩] =
      .error (.discovery msgNoKptfile) :=
    c6_warning_vs_fatal.2.2.1 [⟨("deploy.yaml").data, none, [], YNode.scalar [] []⟩] rfl
  ⟨h3, c6_warning_vs_fatal.1 [⟨("deploy.yaml").data, none, [], YNode.scalar [] []⟩] LSNew
    msgNoKptfile h3⟩

theorem visitMappingField_arr (ls : ListSetters) (f : List Char × List Char × YNode) :
    (visitMappingField ls f).ArraySetters =
      match fieldArrayMark f with
      | none => ls.ArraySetters
      | some pr => arrUpsert ls.ArraySetters pr.1 pr.2 := by
  cases hv : f.2.2 with
  | scalar v c => simp only [visitMappingField, fieldArrayMark, hv]
  | map fs => simp only [visitMappingField, fieldArrayMark, hv]
  | seq elems flow sc =>
    simp only [visitMappingField, fieldArrayMark, hv]
    split <;> split <;> rfl

theorem visitMapping_arr_marks (fields : List (List Char × List Char × YNode))
    (ls : ListSetters) :
    (visitMapping ls fields).ArraySetters =
      (fields.filterMap fieldArrayMark).foldl
        (fun acc pr => arrUpsert acc pr.1 pr.2) ls.ArraySetters := by
  induction fields generalizing ls with
  | nil => rfl
  | cons f rest ih =>
    rw [visitMapping, List.foldl_cons]
    have hrest := ih (visitMappingField ls f)
    rw [visitMapping] at hrest
    rw [hrest, List.filterMap_cons]
    cases hm : fieldArrayMark f with
    | none => rw [visitMappingField_arr, hm]
    | some pr => rw [List.foldl_cons, visitMappingField_arr, hm]

theorem applyOp_arr (ls : ListSetters) (op : RegOp) :
    (applyOp ls op).ArraySetters =
      (opArrayMarks op).foldl (fun acc pr => arrUpsert acc pr.1 pr.2) ls.ArraySetters := by
  cases op with
  | scal c v => exact visitScalar_arrEq ls c v
  | arrMap fs => exact visitMapping_arr_marks fs ls

theorem applyOps_arr (ops : List RegOp) (ls : ListSetters) :
    (applyOps ls ops).ArraySetters =
      (opsArrayMarks ops).foldl (fun acc pr => arrUpsert acc pr.1 pr.2) ls.ArraySetters := by
  induction ops generalizing ls with
  | nil => rfl
  | cons op rest ih =>
    rw [applyOps, List.foldl_cons]
    have hrest := ih (applyOp ls op)
    rw [applyOps] at hrest
    rw [hrest, opsArrayMarks, List.foldl_append, applyOp_arr]

theorem opsArrayMarks_append (a b : List RegOp) :
    opsArrayMarks (a ++ b) = opsArrayMarks a ++ opsArrayMarks b := by
  induction a with
  | nil => rfl
  | cons op rest ih => rw [List.cons_append, opsArrayMarks, ih, opsArrayMarks, List.append_assoc]

theorem walkDocs_arr (docs : List YNode) (ls : ListSetters) :
    (walkDocs ls docs).ArraySetters =
      (docsArrayMarks docs).foldl (fun acc pr => arrUpsert acc pr.1 pr.2) ls.ArraySetters := by
  induction docs generalizing ls with
  | nil => rfl
  | cons d rest ih =>
    rw [walkDocs, List.foldl_cons]
    have hrest := ih (walkNode ls d)
    rw [walkDocs] at hrest
    have hd : docsArrayMarks (d :: rest) = opsArrayMarks (visitOrder d) ++ docsArrayMarks rest := by
      show opsArrayMarks (visitOrder d ++ visitOrderDocs rest) = _
      rw [opsArrayMarks_append]
      rfl
    rw [hrest, hd, List.foldl_append]
    rw [show walkNode ls d = applyOps ls (visitOrder d) from rfl, applyOps_arr]

theorem arrUpsert_names_present (m : List ArraySetter) (k : List Char) (vs : List (List Char))
    (h : (findArr k m).isSome = true) :
    (arrUpsert m k vs).map ArraySetter.Name = m.map ArraySetter.Name := by
  induction m with
  | nil => simp [findArr] at h
  | cons s rest ih =>
    by_cases hs : s.Name = k
    · simp [arrUpsert, hs]
    · rw [findArr, List.find?_cons_of_neg _ (by simp [hs])] at h
      simp only [arrUpsert, if_neg hs, List.map_cons, ih h]

theorem arrUpsert_names_absent (m : List ArraySetter) (k : List Char) (vs : List (List Char))
    (h : findArr k m = none) :
    (arrUpsert m k vs).map ArraySetter.Name = m.map ArraySetter.Name ++ [k] := by
  induction m with
  | nil => rfl
  | cons s rest ih =>
    by_cases hs : s.Name = k
    · rw [findArr, List.find?_cons_of_pos _ (by simp [hs])] at h
      cases h
    · rw [findArr, List.find?_cons_of_neg _ (by simp [hs])] at h
      simp only [arrUpsert, if_neg hs, List.map_cons, ih h, List.cons_append]

theorem arrUpsert_count_keep (m : List ArraySetter) (k : List Char) (vs : List (List Char))
    (n : List Char) (h : k = n → (findArr n m).isSome = true) :
    ((arrUpsert m k vs).map ArraySetter.Name).count n =
      ((m.map ArraySetter.Name).count n) := by
  cases hf : findArr k m with
  | some e => rw [arrUpsert_names_present m k vs (by rw [hf]; rfl)]
  | none =>
    rw [arrUpsert_names_absent m k vs hf, List.count_append]
    have hk : ¬ k = n := by
      intro hkn
      have h2 := h hkn
      rw [hkn] at hf
      rw [hf] at h2
      simp at h2
    simp [List.count_cons, List.count_nil, hk]

theorem arrUpsert_count_new (m : List ArraySetter) (n : List Char) (vs : List (List Char))
    (h : findArr n m = none) :
    ((arrUpsert m n vs).map ArraySetter.Name).count n =
      ((m.map ArraySetter.Name).count n) + 1 := by
  rw [arrUpsert_names_absent m n vs h, List.count_append]
  simp [List.count_cons, List.count_nil]

theorem foldl_arrUpsert_present (marks : List (List Char × List (List Char)))
    (m : List ArraySetter) (n : List Char) (e : ArraySetter)
    (h : findArr n m = some e) :
    findArr n (marks.foldl (fun acc pr => arrUpsert acc pr.1 pr.2) m) =
      some ⟨e.Name, e.Values, e.Count + (marks.filter (fun pr => pr.1 == n)).length⟩ ∧
    ((marks.foldl (fun acc pr => arrUpsert acc pr.1 pr.2) m).map ArraySetter.Name).count n =
      ((m.map ArraySetter.Name).count n) := by
  induction marks generalizing m e with
  | nil =>
    refine ⟨?_, rfl⟩
    simpa using h
  | cons pr rest ih =>
    rw [List.foldl_cons]
    by_cases hk : pr.1 = n
    · have hself : findArr n (arrUpsert m pr.1 pr.2) = some { e with Count := e.Count + 1 } := by
        rw [hk, arrUpsert_find_self, h]
      have hcnt : ((arrUpsert m pr.1 pr.2).map ArraySetter.Name).count n =
          ((m.map ArraySetter.Name).count n) :=
        arrUpsert_count_keep m pr.1 pr.2 n (fun _ => by rw [h]; rfl)
      obtain ⟨h1, h2⟩ := ih _ _ hself
      refine ⟨?_, by rw [h2, hcnt]⟩
      rw [h1]
      have hfc : List.filter (fun pr => pr.1 == n) (pr :: rest) =
          pr :: List.filter (fun pr => pr.1 == n) rest := by
        simp [List.filter_cons, hk]
      rw [hfc, List.length_cons]
      have harith : e.Count + 1 + (List.filter (fun pr => pr.1 == n) rest).length =
          e.Count + ((List.filter (fun pr => pr.1 == n) rest).length + 1) := by omega
      rw [harith]
    · have hother : findArr n (arrUpsert m pr.1 pr.2) = some e := by
        rw [arrUpsert_find_other _ _ _ _ hk]
        exact h
      have hcnt : ((arrUpsert m pr.1 pr.2).map ArraySetter.Name).count n =
          ((m.map ArraySetter.Name).count n) :=
        arrUpsert_count_keep m pr.1 pr.2 n (fun hkn => absurd hkn hk)
      obtain ⟨h1, h2⟩ := ih _ _ hother
      refine ⟨?_, by rw [h2, hcnt]⟩
      rw [h1]
      have hfc : List.filter (fun pr => pr.1 == n) (pr :: rest) =
          List.filter (fun pr => pr.1 == n) rest := by
        simp [List.filter_cons, hk]
      rw [hfc]

theorem foldl_arrUpsert_first (marks : List (List Char × List (List Char)))
    (m : List ArraySetter) (n : List Char) (vs : List (List Char))
    (tl : List (List Char × List (List Char)))
    (habs : findArr n m = none)
    (hf : marks.filter (fun pr => pr.1 == n) = (n, vs) :: tl) :
    findArr n (marks.foldl (fun acc pr => arrUpsert acc pr.1 pr.2) m) =
      some ⟨n, vs, 1 + tl.length⟩ ∧
    ((marks.foldl (fun acc pr => arrUpsert acc pr.1 pr.2) m).map ArraySetter.Name).count n =
      ((m.map ArraySetter.Name).count n) + 1 := by
  induction marks generalizing m with
  | nil => cases hf
  | cons pr rest ih =>
    rw [List.foldl_cons]
    by_cases hk : pr.1 = n
    · rw [List.filter_cons, if_pos (by simp [hk])] at hf
      have hpr2 : pr.2 = vs := by
        have := congrArg (fun l => List.head? l) hf
        simp at this
        exact congrArg Prod.snd this
      have htl : rest.filter (fun pr => pr.1 == n) = tl := by
        have := congrArg (fun l => List.tail l) hf
        simpa using this
      have hstep : findArr n (arrUpsert m pr.1 pr.2) = some ⟨n, vs, 1⟩ := by
        rw [hk, arrUpsert_find_self, habs, hpr2]
      have hcnt : ((arrUpsert m pr.1 pr.2).map ArraySetter.Name).count n =
          ((m.map ArraySetter.Name).count n) + 1 := by
        rw [hk, hpr2]
        exact arrUpsert_count_new m n vs habs
      obtain ⟨h1, h2⟩ := foldl_arrUpsert_present rest _ n ⟨n, vs, 1⟩ hstep
      rw [htl] at h1
      exact ⟨by simpa using h1, by rw [h2, hcnt]⟩
    · rw [List.filter_cons, if_neg (by simp [hk])] at hf
      have hstep : findArr n (arrUpsert m pr.1 pr.2) = none := by
        rw [arrUpsert_find_other _ _ _ _ hk]
        exact habs
      have hcnt : ((arrUpsert m pr.1 pr.2).map ArraySetter.Name).count n =
          ((m.map ArraySetter.Name).count n) :=
        arrUpsert_count_keep m pr.1 pr.2 n (fun hkn => absurd hkn hk)
      obtain ⟨h1, h2⟩ := ih _ hstep hf
      exact ⟨h1, by rw [h2, hcnt]⟩

/-- Claim C8: when exactly `n` marked, sequence-valued mapping fields of a
document set share the same array-setter name (each with the same
order-insensitive element set), a fresh discovery pass produces exactly one
array setter of that name, with `count = n` and the sorted element list of
the first-encountered field as its stored values. -/
theorem c8_array_count (docs : List YNode) (name : List Char) (vs : List (List Char))
    (tl : List (List Char × List (List Char))) (n : Nat)
    (hf : (docsArrayMarks docs).filter (fun pr => pr.1 == name) = (name, vs) :: tl)
    (hn : n = tl.length + 1)
    (hsame : ∀ pr ∈ tl, pr.2 = vs) :
    findArr name (walkDocs LSNew docs).ArraySetters = some ⟨name, vs, n⟩ ∧
    (((walkDocs LSNew docs).ArraySetters.map ArraySetter.Name).count name) = 1 := by
  rw [walkDocs_arr]
  obtain ⟨h1, h2⟩ :=
    foldl_arrUpsert_first (docsArrayMarks docs) LSNew.ArraySetters name vs tl rfl hf
  refine ⟨?_, by simpa using h2⟩
  rw [h1, hn]
  simp [Nat.add_comm]

theorem c8_array_count_witness :
    findArr (("env-list").data)
      (walkDocs LSNew
        [YNode.map [((("env").data), (("# kpt-set: env-list").data),
            YNode.seq [YNode.scalar (("b").data) [], YNode.scalar (("a").data) []] false [])],
         YNode.map [((("env").data), (("# kpt-set: env-list").data),
            YNode.seq [YNode.scalar (("a").data) [], YNode.scalar (("b").data) []] false [])]]).ArraySetters =
      some ⟨("env-list").data, [("a").data, ("b").data], 2⟩ :=
  (c8_array_count
    [YNode.map [((("env").data), (("# kpt-set: env-list").data),
        YNode.seq [YNode.scalar (("b").data) [], YNode.scalar (("a").data) []] false [])],
     YNode.map [((("env").data), (("# kpt-set: env-list").data),
        YNode.seq [YNode.scalar (("a").data) [], YNode.scalar (("b").data) []] false [])]]
    (("env-list").data) [("a").data, ("b").data]
    [((("env-list").data), [("a").data, ("b").data])] 2
    (by
      simp only [docsArrayMarks, visitOrderDocs, visitOrder, visitOrderFields, visitOrderList]
      decide)
    (by decide)
    (by decide)).1

theorem firstSome_some {α β : Type} (f : α → Option β) (l : List α) (b : β)
    (h : firstSome f l = some b) : ∃ a ∈ l, f a = some b := by
  induction l with
  | nil => cases h
  | cons a rest ih =>
    rw [firstSome] at h
    cases hf : f a with
    | some b' =>
      rw [hf] at h
      exact ⟨a, List.mem_cons_self _ _, by rw [hf]; exact h⟩
    | none =>
      rw [hf] at h
      obtain ⟨a', ha', hfa'⟩ := ih h
      exact ⟨a', List.mem_cons_of_mem _ ha', hfa'⟩

theorem grpSplits_decomp (text : List Char) (sp : List Char × List Char)
    (h : sp ∈ grpSplits text) : sp.1 ++ sp.2 = text := by
  rw [grpSplits] at h
  obtain ⟨k, _, rfl⟩ := List.mem_map.mp h
  exact List.take_append_drop k text

theorem grpCount_chr (c : Char) (items : List Item) :
    grpCount (Item.chr c :: items) = grpCount items := by
  rw [grpCount, grpCount, List.countP_cons_of_neg]
  simp

theorem grpCount_grp (items : List Item) :
    grpCount (Item.grp :: items) = grpCount items + 1 := by
  rw [grpCount, grpCount, List.countP_cons_of_pos]
  simp

theorem matchCore_spec (items : List Item) (text : List Char)
    (caps : List (List Char)) (cons rest : List Char)
    (h : matchCore items text = some (caps, cons, rest)) :
    renderItems items caps = cons ∧ cons ++ rest = text ∧ caps.length = grpCount items := by
  induction items generalizing text caps cons rest with
  | nil =>
    rw [matchCore] at h
    simp only [Option.some.injEq, Prod.mk.injEq] at h
    obtain ⟨h1, h2, h3⟩ := h
    subst h1
    subst h2
    subst h3
    exact ⟨rfl, rfl, rfl⟩
  | cons it items ih =>
    cases it with
    | chr c =>
      cases text with
      | nil => rw [matchCore] at h; cases h
      | cons t ts =>
        rw [matchCore] at h
        by_cases htc : t = c
        · rw [if_pos htc] at h
          cases hm : matchCore items ts with
          | none => rw [hm] at h; cases h
          | some r =>
            rw [hm] at h
            simp only [Option.map_some', Option.some.injEq, Prod.mk.injEq] at h
            obtain ⟨h1, h2, h3⟩ := h
            obtain ⟨ih1, ih2, ih3⟩ := ih ts r.1 r.2.1 r.2.2 (by rw [hm])
            subst h1
            subst h2
            subst h3
            refine ⟨?_, ?_, ?_⟩
            · rw [renderItems, ih1]
            · rw [List.cons_append, ih2, htc]
            · rw [ih3, grpCount_chr]
        · rw [if_neg htc] at h; cases h
    | grp =>
      rw [matchCore] at h
      obtain ⟨sp, hsp, hf⟩ := firstSome_some _ _ _ h
      cases hm : matchCore items sp.2 with
      | none => rw [hm] at hf; cases hf
      | some r =>
        rw [hm] at hf
        simp only [Option.map_some', Option.some.injEq, Prod.mk.injEq] at hf
        obtain ⟨h1, h2, h3⟩ := hf
        obtain ⟨ih1, ih2, ih3⟩ := ih sp.2 r.1 r.2.1 r.2.2 (by rw [hm])
        subst h1
        subst h2
        subst h3
        refine ⟨?_, ?_, ?_⟩
        · rw [renderItems]
          simp only [List.headD_cons, List.tail_cons]
          rw [ih1]
        · rw [List.append_assoc, ih2]
          exact grpSplits_decomp text sp hsp
        · rw [List.length_cons, ih3, grpCount_grp]

theorem findFromF_spec (fuel : Nat) (items : List Item) (text m : List Char)
    (caps : List (List Char)) (h : findFromF fuel items text = some (m, caps)) :
    ∃ pre rest, text = pre ++ (m ++ rest) ∧
      matchCore items (m ++ rest) = some (caps, m, rest) := by
  induction fuel generalizing text with
  | zero => cases h
  | succ f ih =>
    cases text with
    | nil =>
      rw [findFromF] at h
      cases hm : matchCore items [] with
      | none => rw [hm] at h; cases h
      | some r =>
        rw [hm] at h
        simp only [Option.map_some', Option.some.injEq, Prod.mk.injEq] at h
        obtain ⟨h1, h2⟩ := h
        obtain ⟨_, hdec, _⟩ := matchCore_spec items [] r.1 r.2.1 r.2.2 (by rw [hm])
        subst h1
        subst h2
        refine ⟨[], r.2.2, ?_, ?_⟩
        · rw [List.nil_append, hdec]
        · rw [hdec, hm]
    | cons c ts =>
      rw [findFromF] at h
      cases hm : matchCore items (c :: ts) with
      | some r =>
        rw [hm] at h
        simp only [Option.some.injEq, Prod.mk.injEq] at h
        obtain ⟨h1, h2⟩ := h
        obtain ⟨_, hdec, _⟩ := matchCore_spec items (c :: ts) r.1 r.2.1 r.2.2 (by rw [hm])
        subst h1
        subst h2
        refine ⟨[], r.2.2, ?_, ?_⟩
        · rw [List.nil_append, hdec]
        · rw [hdec, hm]
      | none =>
        rw [hm] at h
        obtain ⟨pre, rest, h1, h2⟩ := ih ts h
        exact ⟨c :: pre, rest, by rw [List.cons_append, h1], h2⟩

theorem findFrom_spec (items : List Item) (text m : List Char)
    (caps : List (List Char)) (h : findFrom items text = some (m, caps)) :
    ∃ pre rest, text = pre ++ (m ++ rest) ∧
      matchCore items (m ++ rest) = some (caps, m, rest) :=
  findFromF_spec _ items text m caps h

theorem renderItems_chrs (s : List Char) (X : List Item) (caps : List (List Char)) :
    renderItems (itemsOfString s ++ X) caps = s ++ renderItems X caps := by
  induction s with
  | nil => rfl
  | cons c cs ih =>
    rw [itemsOfString, List.map_cons, List.cons_append, renderItems]
    rw [show itemsOfString cs = List.map Item.chr cs from rfl] at ih
    rw [ih]
    rfl

theorem render_subst (segs : List Seg) (caps : List (List Char))
    (b : List (List Char × List Char))
    (h : List.Forall₂ (fun t c => lookupA (clean t) b = some c) (phTokens segs) caps) :
    renderItems (segsItems segs) caps = substSegs segs b := by
  induction segs generalizing caps with
  | nil =>
    cases h
    rfl
  | cons sg rest ih =>
    cases sg with
    | lit s =>
      rw [show segsItems (Seg.lit s :: rest) = itemsOfString s ++ segsItems rest from rfl]
      rw [renderItems_chrs, substSegs, ih caps h]
    | ph t =>
      have h' : List.Forall₂ (fun t c => lookupA (clean t) b = some c)
          (t :: phTokens rest) caps := h
      cases h' with
      | cons hc hrest =>
        rw [show segsItems (Seg.ph t :: rest) = Item.grp :: segsItems rest from rfl]
        rw [renderItems]
        simp only [List.headD_cons, List.tail_cons]
        rw [substSegs, hc, Option.getD_some, ih _ hrest]

theorem bindPairs_whole (pairs acc : List (List Char × List Char))
    (h : bindPairs acc pairs ≠ []) :
    bindPairs acc pairs = pairs.foldl (fun a pr => upsertA a pr.1 pr.2) acc := by
  induction pairs generalizing acc with
  | nil => rfl
  | cons pr rest ih =>
    obtain ⟨n, c⟩ := pr
    rw [bindPairs] at h ⊢
    by_cases hc : c = []
    · rw [if_pos hc] at h
      exact absurd rfl h
    · rw [if_neg hc] at h ⊢
      rw [List.foldl_cons]
      exact ih _ h

theorem upsertA_lookup_self (acc : List (List Char × List Char)) (n c : List Char) :
    lookupA n (upsertA acc n c) = some c := by
  induction acc with
  | nil => simp [upsertA, lookupA]
  | cons p rest ih =>
    by_cases hp : p.1 = n
    · simp [upsertA, hp, lookupA]
    · simp only [upsertA, if_neg hp, lookupA]
      exact ih

theorem upsertA_lookup_other (acc : List (List Char × List Char)) (n c k : List Char)
    (h : n ≠ k) : lookupA k (upsertA acc n c) = lookupA k acc := by
  induction acc with
  | nil => simp [upsertA, lookupA, h]
  | cons p rest ih =>
    by_cases hp : p.1 = n
    · simp only [upsertA, if_pos hp, lookupA]
      rw [if_neg h, if_neg (by rw [hp]; exact h)]
    · simp only [upsertA, if_neg hp, lookupA]
      by_cases hpk : p.1 = k
      · rw [if_pos hpk, if_pos hpk]
      · rw [if_neg hpk, if_neg hpk]
        exact ih

theorem foldl_upsertA_skip (pairs : List (List Char × List Char))
    (acc : List (List Char × List Char)) (k : List Char)
    (h : ∀ pr ∈ pairs, pr.1 ≠ k) :
    lookupA k (pairs.foldl (fun a pr => upsertA a pr.1 pr.2) acc) = lookupA k acc := by
  induction pairs generalizing acc with
  | nil => rfl
  | cons pr rest ih =>
    rw [List.foldl_cons]
    rw [ih _ (fun q hq => h q (List.mem_cons_of_mem _ hq))]
    exact upsertA_lookup_other acc pr.1 pr.2 k (h pr (List.mem_cons_self _ _))

theorem foldl_upsertA_mem (pairs : List (List Char × List Char))
    (acc : List (List Char × List Char)) (n c : List Char)
    (hnd : (pairs.map Prod.fst).Nodup) (hmem : (n, c) ∈ pairs) :
    lookupA n (pairs.foldl (fun a pr => upsertA a pr.1 pr.2) acc) = some c := by
  induction pairs generalizing acc with
  | nil => cases hmem
  | cons pr rest ih =>
    rw [List.foldl_cons]
    rcases List.mem_cons.mp hmem with heq | hmem'
    · have hpr1 : pr.1 = n := by rw [← heq]
      have hnot : ∀ q ∈ rest, q.1 ≠ n := by
        intro q hq hqn
        have hni := (List.nodup_cons.mp hnd).1
        apply hni
        rw [hpr1]
        exact List.mem_map.mpr ⟨q, hq, hqn⟩
      rw [foldl_upsertA_skip rest _ n hnot]
      have hpr2 : pr.2 = c := by rw [← heq]
      rw [← hpr1, ← hpr2]
      exact upsertA_lookup_self acc pr.1 pr.2
    · exact ih _ (List.nodup_cons.mp hnd).2 hmem'

/-- Claim C1 (amended): whenever `currentSetterValues(pattern, value)`
returns a non-empty binding, the placeholder names are pairwise distinct,
and the group substitution replaced exactly the placeholder occurrences
(no placeholder text also occurring elsewhere in the pattern), substituting
the bound values back into the pattern's placeholder occurrences
reconstructs exactly the leftmost substring of `value` matched by the
generated expression — an infix of `value`, not necessarily all of it: the
expression is compiled without anchors. -/
theorem c1_roundtrip (p v : List Char)
    (hnodup : ((unresolvedSetters p).map clean).Nodup)
    (hbuild : buildItems p = segsItems (tokenize p))
    (hne : currentSetterValues p v ≠ []) :
    ∃ m caps, findFrom (buildItems p) v = some (m, caps) ∧
      substPattern p (currentSetterValues p v) = m ∧ m <:+: v := by
  cases hfind : findFrom (buildItems p) v with
  | none =>
    rw [currentSetterValues, hfind] at hne
    exact absurd rfl hne
  | some r =>
    obtain ⟨m, caps⟩ := r
    have hcv : currentSetterValues p v =
        if caps.length = (unresolvedSetters p).length then
          bindPairs [] (List.zip ((unresolvedSetters p).map clean) caps)
        else [] := by
      rw [currentSetterValues, hfind]
    by_cases hlen : caps.length = (unresolvedSetters p).length
    · obtain ⟨pre, rest, hv, hmc⟩ := findFrom_spec (buildItems p) v m caps hfind
      obtain ⟨hrender, hdec, hlen2⟩ := matchCore_spec (buildItems p) (m ++ rest) caps m rest hmc
      refine ⟨m, caps, rfl, ?_, ⟨pre, rest, by rw [hv, List.append_assoc]⟩⟩
      rw [hcv, if_pos hlen] at hne ⊢
      rw [bindPairs_whole _ _ hne]
      have hforall : List.Forall₂
          (fun t c => lookupA (clean t)
            ((List.zip ((unresolvedSetters p).map clean) caps).foldl
              (fun a pr => upsertA a pr.1 pr.2) []) = some c)
          (unresolvedSetters p) caps := by
        rw [List.forall₂_iff_zip]
        refine ⟨hlen.symm, ?_⟩
        intro t c htc
        apply foldl_upsertA_mem
        · rw [List.map_fst_zip]
          · exact hnodup
          · rw [List.length_map]
            omega
        · rw [List.zip_map_left]
          exact List.mem_map.mpr ⟨(t, c), htc, rfl⟩
      have hsub := render_subst (tokenize p) caps _ hforall
      rw [substPattern, ← hsub, ← hbuild, hrender]
    · rw [hcv, if_neg hlen] at hne
      exact absurd rfl hne

/-- Claim C1, counterexample to the claim as stated: the generated
expression is not anchored — pattern `a$\x7bx\x7d` against value `ba1`
yields the non-empty binding `x = 1`, but substituting back gives `a1`, not
`ba1` (the match is a proper infix of the value). -/
theorem c1_counterexample :
    currentSetterValues (("a$\x7bx\x7d").data) (("ba1").data) ≠ [] ∧
    substPattern (("a$\x7bx\x7d").data)
      (currentSetterValues (("a$\x7bx\x7d").data) (("ba1").data)) ≠ ("ba1").data := by
  refine ⟨by decide, by decide⟩

theorem c1_roundtrip_witness :
    ∃ m caps,
      findFrom (buildItems (("$\x7bimage\x7d:$\x7btag\x7d").data)) (("nginx:1.14").data) =
        some (m, caps) ∧
      substPattern (("$\x7bimage\x7d:$\x7btag\x7d").data)
        (currentSetterValues (("$\x7bimage\x7d:$\x7btag\x7d").data) (("nginx:1.14").data)) = m ∧
      m <:+: (("nginx:1.14").data) :=
  c1_roundtrip (("$\x7bimage\x7d:$\x7btag\x7d").data) (("nginx:1.14").data)
    (by decide) (by decide) (by decide)

theorem char_eq_of_toNat_eq (a b : Char) (h : a.toNat = b.toNat) : a = b := by
  rw [← Char.ofNat_toNat a, ← Char.ofNat_toNat b, h]

theorem goStrLt_asymm (a b : List Char) (h : goStrLt a b = true) : goStrLt b a = false := by
  induction a generalizing b with
  | nil =>
    cases b with
    | nil => cases h
    | cons y ys => rfl
  | cons x xs ih =>
    cases b with
    | nil => cases h
    | cons y ys =>
      rw [goStrLt] at h ⊢
      by_cases h1 : x.toNat < y.toNat
      · rw [if_neg (by omega), if_pos h1]
      · rw [if_neg h1] at h
        by_cases h2 : y.toNat < x.toNat
        · rw [if_pos h2] at h
          cases h
        · rw [if_neg h2] at h
          rw [if_neg h2, if_neg h1]
          exact ih ys h

theorem goStrLt_conn (a b : List Char) (h1 : goStrLt a b = false)
    (h2 : goStrLt b a = false) : a = b := by
  induction a generalizing b with
  | nil =>
    cases b with
    | nil => rfl
    | cons y ys => cases h1
  | cons x xs ih =>
    cases b with
    | nil => cases h2
    | cons y ys =>
      rw [goStrLt] at h1 h2
      by_cases hxy : x.toNat < y.toNat
      · rw [if_pos hxy] at h1
        cases h1
      · by_cases hyx : y.toNat < x.toNat
        · rw [if_pos hyx] at h2
          cases h2
        · rw [if_neg hxy, if_neg hyx] at h1
          rw [if_neg hyx, if_neg hxy] at h2
          rw [char_eq_of_toNat_eq x y (by omega), ih ys h1 h2]

theorem goStrLt_trans (a b c : List Char) (h1 : goStrLt a b = true)
    (h2 : goStrLt b c = true) : goStrLt a c = true := by
  induction a generalizing b c with
  | nil =>
    cases c with
    | nil =>
      cases b with
      | nil => cases h2
      | cons y ys => cases h2
    | cons z zs => rfl
  | cons x xs ih =>
    cases b with
    | nil => cases h1
    | cons y ys =>
      cases c with
      | nil => cases h2
      | cons z zs =>
        rw [goStrLt] at h1 h2 ⊢
        by_cases hxy : x.toNat < y.toNat
        · by_cases hyz : y.toNat < z.toNat
          · rw [if_pos (by omega)]
          · rw [if_neg hyz] at h2
            by_cases hzy : z.toNat < y.toNat
            · rw [if_pos hzy] at h2
              cases h2
            · rw [if_pos (by omega)]
        · rw [if_neg hxy] at h1
          by_cases hyx : y.toNat < x.toNat
          · rw [if_pos hyx] at h1
            cases h1
          · rw [if_neg hyx] at h1
            by_cases hyz : y.toNat < z.toNat
            · rw [if_pos (by omega)]
            · rw [if_neg hyz] at h2
              by_cases hzy : z.toNat < y.toNat
              · rw [if_pos hzy] at h2
                cases h2
              · rw [if_neg hzy] at h2
                rw [if_neg (by omega), if_neg (by omega)]
                exact ih ys zs h1 h2

theorem goStrLt_irrefl_ne (n : List Char) (h : goStrLt n n = true) : False := by
  have hf := goStrLt_asymm n n h
  rw [h] at hf
  cases hf

theorem lexLT_asymm (x y : Result) (h1 : lexLT x y) (h2 : lexLT y x) : False := by
  rcases h1 with h1 | ⟨he1, ht1⟩ <;> rcases h2 with h2 | ⟨he2, ht2⟩
  · rw [goStrLt_asymm _ _ h1] at h2
    cases h2
  · rw [he2] at h1
    exact goStrLt_irrefl_ne _ h1
  · rw [he1] at h2
    exact goStrLt_irrefl_ne _ h2
  · rw [goStrLt_asymm _ _ ht1] at ht2
    cases ht2

theorem insertStable_perm {α : Type} (less : α → α → Bool) (a : α) (l : List α) :
    (insertStable less a l).Perm (a :: l) := by
  induction l with
  | nil => exact List.Perm.refl _
  | cons b l' ih =>
    rw [insertStable]
    by_cases hb : less b a = true
    · rw [if_pos hb]
      exact (ih.cons b).trans (List.Perm.swap a b l')
    · rw [if_neg hb]

theorem sliceStableSort_perm {α : Type} (less : α → α → Bool) (l : List α) :
    (sliceStableSort less l).Perm l := by
  induction l with
  | nil => exact List.Perm.refl _
  | cons a l' ih =>
    rw [sliceStableSort, List.foldr_cons]
    rw [sliceStableSort] at ih
    exact (insertStable_perm less a _).trans (ih.cons a)

theorem insertStable_pairwise (a : Result) (l : List Result)
    (hl : l.Pairwise lexLT)
    (hcross : ∀ c ∈ l, a.Name = c.Name → goStrLt a.Typ c.Typ = true) :
    (insertStable resLess a l).Pairwise lexLT := by
  induction l with
  | nil => exact List.pairwise_singleton _ _
  | cons b l' ih =>
    rw [insertStable]
    obtain ⟨hbl, hl'⟩ := List.pairwise_cons.mp hl
    by_cases hb : resLess b a = true
    · rw [if_pos hb]
      refine List.pairwise_cons.mpr
        ⟨?_, ih hl' (fun c hc => hcross c (List.mem_cons_of_mem _ hc))⟩
      intro y hy
      have hy' : y ∈ a :: l' := (insertStable_perm resLess a l').mem_iff.mp hy
      rcases List.mem_cons.mp hy' with rfl | hyl
      · exact Or.inl hb
      · exact hbl y hyl
    · rw [if_neg hb]
      have hbf : goStrLt b.Name a.Name = false := by
        revert hb
        rw [resLess]
        cases goStrLt b.Name a.Name <;> simp
      have hab : lexLT a b := by
        cases hax : goStrLt a.Name b.Name with
        | true => exact Or.inl hax
        | false =>
          have heq : a.Name = b.Name := goStrLt_conn _ _ hax hbf
          exact Or.inr ⟨heq, hcross b (List.mem_cons_self _ _) heq⟩
      refine List.pairwise_cons.mpr ⟨?_, hl⟩
      intro y hy
      rcases List.mem_cons.mp hy with rfl | hyl
      · exact hab
      · have hby := hbl y hyl
        rcases hby with hby | ⟨hbye, hbyt⟩
        · cases hax : goStrLt a.Name b.Name with
          | true => exact Or.inl (goStrLt_trans _ _ _ hax hby)
          | false =>
            have heq : a.Name = b.Name := goStrLt_conn _ _ hax hbf
            exact Or.inl (by rw [heq]; exact hby)
        · cases hax : goStrLt a.Name b.Name with
          | true => exact Or.inl (by rw [← hbye]; exact hax)
          | false =>
            have heq : a.Name = b.Name := goStrLt_conn _ _ hax hbf
            exact Or.inr ⟨by rw [heq, hbye],
              hcross y (List.mem_cons_of_mem _ hyl) (by rw [heq, hbye])⟩

theorem foldr_insert_pairwise (L base : List Result)
    (hbase : base.Pairwise lexLT)
    (hnames : (L.map Result.Name).Nodup)
    (hcross : ∀ x ∈ L, ∀ c ∈ base, x.Name = c.Name → goStrLt x.Typ c.Typ = true) :
    (L.foldr (insertStable resLess) base).Pairwise lexLT ∧
    (L.foldr (insertStable resLess) base).Perm (L ++ base) := by
  induction L with
  | nil => exact ⟨hbase, List.Perm.refl _⟩
  | cons a L' ih =>
    rw [List.map_cons, List.nodup_cons] at hnames
    obtain ⟨hp, hperm⟩ := ih hnames.2
      (fun x hx c hc => hcross x (List.mem_cons_of_mem _ hx) c hc)
    rw [List.foldr_cons]
    constructor
    · apply insertStable_pairwise a _ hp
      intro c hc hname
      have hc' : c ∈ L' ++ base := hperm.mem_iff.mp hc
      rcases List.mem_append.mp hc' with hcl | hcb
      · exact absurd (List.mem_map.mpr ⟨c, hcl, hname.symm⟩) hnames.1
      · exact hcross a (List.mem_cons_self _ _) c hcb hname
    · exact (insertStable_perm _ _ _).trans (hperm.cons a)

theorem sortRes_pairwise (A S : List Result)
    (hA : (A.map Result.Name).Nodup) (hS : (S.map Result.Name).Nodup)
    (hAt : ∀ x ∈ A, x.Typ = ArraySetterTypeL) (hSt : ∀ x ∈ S, x.Typ = ScalarSetterTypeL) :
    (sliceStableSort resLess (A ++ S)).Pairwise lexLT := by
  rw [sliceStableSort, List.foldr_append]
  obtain ⟨hpS, hpermS⟩ := foldr_insert_pairwise S [] List.Pairwise.nil hS
    (fun x _ c hc => absurd hc (List.not_mem_nil c))
  have hAS : ∀ x ∈ A, ∀ c ∈ S.foldr (insertStable resLess) [],
      x.Name = c.Name → goStrLt x.Typ c.Typ = true := by
    intro x hx c hc hname
    have hcS : c ∈ S ++ [] := hpermS.mem_iff.mp hc
    rw [List.append_nil] at hcS
    rw [hAt x hx, hSt c hcS]
    decide
  obtain ⟨hpA, _⟩ := foldr_insert_pairwise A (S.foldr (insertStable resLess) []) hpS hA hAS
  exact hpA

theorem sortRes_det (A1 S1 A2 S2 : List Result)
    (hperm : (A1 ++ S1).Perm (A2 ++ S2))
    (hA1 : (A1.map Result.Name).Nodup) (hS1 : (S1.map Result.Name).Nodup)
    (hAt1 : ∀ x ∈ A1, x.Typ = ArraySetterTypeL) (hSt1 : ∀ x ∈ S1, x.Typ = ScalarSetterTypeL)
    (hA2 : (A2.map Result.Name).Nodup) (hS2 : (S2.map Result.Name).Nodup)
    (hAt2 : ∀ x ∈ A2, x.Typ = ArraySetterTypeL) (hSt2 : ∀ x ∈ S2, x.Typ = ScalarSetterTypeL) :
    sliceStableSort resLess (A1 ++ S1) = sliceStableSort resLess (A2 ++ S2) := by
  refine @List.eq_of_perm_of_sorted Result lexLT
    ⟨fun a b h1 h2 => (lexLT_asymm a b h1 h2).elim⟩ _ _ ?_ ?_ ?_
  · exact (sliceStableSort_perm _ _).trans (hperm.trans (sliceStableSort_perm _ _).symm)
  · exact sortRes_pairwise A1 S1 hA1 hS1 hAt1 hSt1
  · exact sortRes_pairwise A2 S2 hA2 hS2 hAt2 hSt2

theorem nodup_names_step (names names' : List (List Char)) (n : List Char)
    (h : names.Nodup)
    (hc : names' = names ∨ (names' = names ++ [n] ∧ n ∉ names)) : names'.Nodup := by
  rcases hc with rfl | ⟨rfl, hn⟩
  · exact h
  · rw [List.nodup_append]
    refine ⟨h, List.nodup_singleton n, ?_⟩
    intro a ha hb
    rw [List.mem_singleton] at hb
    subst hb
    exact hn ha

theorem scalUpsert_names_cases (m : List ScalarSetter) (n v : List Char) :
    (scalUpsert m n v).map ScalarSetter.Name = m.map ScalarSetter.Name ∨
    ((scalUpsert m n v).map ScalarSetter.Name = m.map ScalarSetter.Name ++ [n] ∧
      n ∉ m.map ScalarSetter.Name) := by
  induction m with
  | nil =>
    right
    exact ⟨rfl, by simp⟩
  | cons s rest ih =>
    by_cases hs : s.Name = n
    · left
      simp [scalUpsert, hs]
    · rcases ih with h | ⟨h, hn⟩
      · left
        simp only [scalUpsert, if_neg hs, List.map_cons, h]
      · right
        refine ⟨by simp only [scalUpsert, if_neg hs, List.map_cons, h, List.cons_append], ?_⟩
        intro hmem
        rcases List.mem_cons.mp hmem with he | hm
        · exact hs he.symm
        · exact hn hm

theorem arrUpsert_names_cases (m : List ArraySetter) (n : List Char) (vs : List (List Char)) :
    (arrUpsert m n vs).map ArraySetter.Name = m.map ArraySetter.Name ∨
    ((arrUpsert m n vs).map ArraySetter.Name = m.map ArraySetter.Name ++ [n] ∧
      n ∉ m.map ArraySetter.Name) := by
  induction m with
  | nil =>
    right
    exact ⟨rfl, by simp⟩
  | cons s rest ih =>
    by_cases hs : s.Name = n
    · left
      simp [arrUpsert, hs]
    · rcases ih with h | ⟨h, hn⟩
      · left
        simp only [arrUpsert, if_neg hs, List.map_cons, h]
      · right
        refine ⟨by simp only [arrUpsert, if_neg hs, List.map_cons, h, List.cons_append], ?_⟩
        intro hmem
        rcases List.mem_cons.mp hmem with he | hm
        · exact hs he.symm
        · exact hn hm

theorem seedAssignScal_names_cases (m : List ScalarSetter) (n v : List Char) :
    (seedAssignScal m n v).map ScalarSetter.Name = m.map ScalarSetter.Name ∨
    ((seedAssignScal m n v).map ScalarSetter.Name = m.map ScalarSetter.Name ++ [n] ∧
      n ∉ m.map ScalarSetter.Name) := by
  induction m with
  | nil =>
    right
    exact ⟨rfl, by simp⟩
  | cons s rest ih =>
    by_cases hs : s.Name = n
    · left
      simp [seedAssignScal, hs]
    · rcases ih with h | ⟨h, hn⟩
      · left
        simp only [seedAssignScal, if_neg hs, List.map_cons, h]
      · right
        refine ⟨by simp only [seedAssignScal, if_neg hs, List.map_cons, h, List.cons_append], ?_⟩
        intro hmem
        rcases List.mem_cons.mp hmem with he | hm
        · exact hs he.symm
        · exact hn hm

theorem seedAssignArr_names_cases (m : List ArraySetter) (n : List Char) (vs : List (List Char)) :
    (seedAssignArr m n vs).map ArraySetter.Name = m.map ArraySetter.Name ∨
    ((seedAssignArr m n vs).map ArraySetter.Name = m.map ArraySetter.Name ++ [n] ∧
      n ∉ m.map ArraySetter.Name) := by
  induction m with
  | nil =>
    right
    exact ⟨rfl, by simp⟩
  | cons s rest ih =>
    by_cases hs : s.Name = n
    · left
      simp [seedAssignArr, hs]
    · rcases ih with h | ⟨h, hn⟩
      · left
        simp only [seedAssignArr, if_neg hs, List.map_cons, h]
      · right
        refine ⟨by simp only [seedAssignArr, if_neg hs, List.map_cons, h, List.cons_append], ?_⟩
        intro hmem
        rcases List.mem_cons.mp hmem with he | hm
        · exact hs he.symm
        · exact hn hm

theorem scalFold_nodup (pairs : List (List Char × List Char)) (m : List ScalarSetter)
    (h : (m.map ScalarSetter.Name).Nodup) :
    ((pairs.foldl (fun acc pr => scalUpsert acc pr.1 pr.2) m).map ScalarSetter.Name).Nodup := by
  induction pairs generalizing m with
  | nil => exact h
  | cons pr rest ih =>
    rw [List.foldl_cons]
    exact ih _ (nodup_names_step _ _ pr.1 h (scalUpsert_names_cases m pr.1 pr.2))

theorem arrFold_nodup (marks : List (List Char × List (List Char))) (m : List ArraySetter)
    (h : (m.map ArraySetter.Name).Nodup) :
    ((marks.foldl (fun acc pr => arrUpsert acc pr.1 pr.2) m).map ArraySetter.Name).Nodup := by
  induction marks generalizing m with
  | nil => exact h
  | cons pr rest ih =>
    rw [List.foldl_cons]
    exact ih _ (nodup_names_step _ _ pr.1 h (arrUpsert_names_cases m pr.1 pr.2))

theorem regWF_visitScalar (ls : ListSetters) (c v : List Char) (h : RegWF ls) :
    RegWF (visitScalar ls c v) := by
  constructor
  · rw [visitScalar]
    split
    · exact h.1
    · exact scalFold_nodup _ _ h.1
  · rw [visitScalar_arrEq]
    exact h.2

theorem regWF_visitMapping (ls : ListSetters) (fields : List (List Char × List Char × YNode))
    (h : RegWF ls) : RegWF (visitMapping ls fields) := by
  constructor
  · rw [visitMapping_scalEq]
    exact h.1
  · rw [visitMapping_arr_marks]
    exact arrFold_nodup _ _ h.2

theorem regWF_applyOp (ls : ListSetters) (op : RegOp) (h : RegWF ls) :
    RegWF (applyOp ls op) := by
  cases op with
  | scal c v => exact regWF_visitScalar ls c v h
  | arrMap fs => exact regWF_visitMapping ls fs h

theorem regWF_applyOps (ops : List RegOp) (ls : ListSetters) (h : RegWF ls) :
    RegWF (applyOps ls ops) := by
  induction ops generalizing ls with
  | nil => exact h
  | cons op rest ih =>
    rw [applyOps, List.foldl_cons]
    have := ih (applyOp ls op) (regWF_applyOp ls op h)
    rw [applyOps] at this
    exact this

theorem regWF_seedPair (ls : ListSetters) (pr : List Char × List Char) (h : RegWF ls) :
    RegWF (seedPair ls pr) := by
  rw [seedPair]
  cases getArraySetterValues pr.2 with
  | some vs =>
    exact ⟨h.1, nodup_names_step _ _ pr.1 h.2 (seedAssignArr_names_cases _ pr.1 vs)⟩
  | none =>
    exact ⟨nodup_names_step _ _ pr.1 h.1 (seedAssignScal_names_cases _ pr.1 pr.2), h.2⟩

theorem regWF_addKptfileSetters (ls : ListSetters) (s : List (List Char × List Char))
    (h : RegWF ls) : RegWF (addKptfileSetters ls s) := by
  rw [addKptfileSetters]
  induction s generalizing ls with
  | nil => exact h
  | cons pr rest ih =>
    rw [List.foldl_cons]
    exact ih _ (regWF_seedPair ls pr h)

theorem regWF_walkRNode (ls : ListSetters) (nd : RNode) (h : RegWF ls) :
    RegWF (walkRNode ls nd) :=
  regWF_applyOps _ _ ⟨h.1, h.2⟩

theorem regWF_walkAll (nodes : List RNode) (ls : ListSetters) (h : RegWF ls) :
    RegWF (walkAll ls nodes) := by
  induction nodes generalizing ls with
  | nil => exact h
  | cons nd rest ih =>
    rw [walkAll, List.foldl_cons]
    have := ih (walkRNode ls nd) (regWF_walkRNode ls nd h)
    rw [walkAll] at this
    exact this

theorem map_name_toArr (l : List ArraySetter) :
    (l.map toArrResult).map Result.Name = l.map ArraySetter.Name := by
  induction l with
  | nil => rfl
  | cons a r ih =>
    rw [List.map_cons, List.map_cons, List.map_cons, ih]
    rfl

theorem map_name_toScal (l : List ScalarSetter) :
    (l.map toScalResult).map Result.Name = l.map ScalarSetter.Name := by
  induction l with
  | nil => rfl
  | cons a r ih =>
    rw [List.map_cons, List.map_cons, List.map_cons, ih]
    rfl

theorem getResultsOn_det (arr : List ArraySetter) (scal : List ScalarSetter)
    (hA : (arr.map ArraySetter.Name).Nodup) (hS : (scal.map ScalarSetter.Name).Nodup)
    (a1 a2 : List ArraySetter) (s1 s2 : List ScalarSetter)
    (ha1 : a1.Perm arr) (ha2 : a2.Perm arr) (hs1 : s1.Perm scal) (hs2 : s2.Perm scal) :
    getResultsOn a1 s1 = getResultsOn a2 s2 := by
  rw [getResultsOn, getResultsOn]
  apply sortRes_det
  · exact ((ha1.map toArrResult).append (hs1.map toScalResult)).trans
      (((ha2.map toArrResult).append (hs2.map toScalResult)).symm)
  · rw [map_name_toArr]
    exact (ha1.map ArraySetter.Name).nodup_iff.mpr hA
  · rw [map_name_toScal]
    exact (hs1.map ScalarSetter.Name).nodup_iff.mpr hS
  · intro x hx
    obtain ⟨a, _, rfl⟩ := List.mem_map.mp hx
    rfl
  · intro x hx
    obtain ⟨s, _, rfl⟩ := List.mem_map.mp hx
    rfl
  · rw [map_name_toArr]
    exact (ha2.map ArraySetter.Name).nodup_iff.mpr hA
  · rw [map_name_toScal]
    exact (hs2.map ScalarSetter.Name).nodup_iff.mpr hS
  · intro x hx
    obtain ⟨a, _, rfl⟩ := List.mem_map.mp hx
    rfl
  · intro x hx
    obtain ⟨s, _, rfl⟩ := List.mem_map.mp hx
    rfl

/-- Claim C9: a discovery pass over a fresh registry returns the document
set unchanged, and its sorted result list is the same whatever iteration
orders the two registry maps are read in — hence two runs over the same
document set yield identical sorted results. -/
theorem c9_idempotent (nodes ns : List RNode) (ls' : ListSetters)
    (h : Filter LSNew nodes = .ok (ns, ls')) :
    ns = nodes ∧
    ∀ a1 a2 s1 s2, a1.Perm ls'.ArraySetters → a2.Perm ls'.ArraySetters →
      s1.Perm ls'.ScalarSetters → s2.Perm ls'.ScalarSetters →
      getResultsOn a1 s1 = getResultsOn a2 s2 := by
  have hkey : ns = nodes ∧ RegWF ls' := by
    rw [Filter] at h
    cases hk : FindSettersFromKptfile nodes with
    | error e =>
      cases e with
      | discovery m =>
        rw [hk] at h
        simp only [Except.ok.injEq, Prod.mk.injEq] at h
        obtain ⟨hns, hls⟩ := h
        refine ⟨hns.symm, ?_⟩
        rw [← hls]
        exact regWF_walkAll nodes _ ⟨List.Pairwise.nil, List.Pairwise.nil⟩
      | fatal m =>
        rw [hk] at h
        cases h
    | ok s =>
      rw [hk] at h
      simp only [Except.ok.injEq, Prod.mk.injEq] at h
      obtain ⟨hns, hls⟩ := h
      refine ⟨hns.symm, ?_⟩
      rw [← hls]
      exact regWF_walkAll nodes _
        (regWF_addKptfileSetters LSNew s ⟨List.Pairwise.nil, List.Pairwise.nil⟩)
  refine ⟨hkey.1, ?_⟩
  intro a1 a2 s1 s2 ha1 ha2 hs1 hs2
  exact getResultsOn_det ls'.ArraySetters ls'.ScalarSetters hkey.2.2 hkey.2.1
    a1 a2 s1 s2 ha1 ha2 hs1 hs2

theorem c9_idempotent_witness :
    ([⟨("deploy.yaml").data, none, [],
        YNode.scalar (("3").data) (("# kpt-set: $\x7breplicas\x7d").data)⟩] : List RNode) =
      [⟨("deploy.yaml").data, none, [],
        YNode.scalar (("3").data) (("# kpt-set: $\x7breplicas\x7d").data)⟩] ∧
    getResultsOn
      (walkAll (pushWarning LSNew msgNoKptfile)
        [⟨("deploy.yaml").data, none, [],
          YNode.scalar (("3").data) (("# kpt-set: $\x7breplicas\x7d").data)⟩]).ArraySetters
      (walkAll (pushWarning LSNew msgNoKptfile)
        [⟨("deploy.yaml").data, none, [],
          YNode.scalar (("3").data) (("# kpt-set: $\x7breplicas\x7d").data)⟩]).ScalarSetters =
    getResultsOn
      (walkAll (pushWarning LSNew msgNoKptfile)
        [⟨("deploy.yaml").data, none, [],
          YNode.scalar (("3").data) (("# kpt-set: $\x7breplicas\x7d").data)⟩]).ArraySetters
      (walkAll (pushWarning LSNew msgNoKptfile)
        [⟨("deploy.yaml").data, none, [],
          YNode.scalar (("3").data) (("# kpt-set: $\x7breplicas\x7d").data)⟩]).ScalarSetters :=
  have h := c9_idempotent
    [⟨("deploy.yaml").data, none, [],
      YNode.scalar (("3").data) (("# kpt-set: $\x7breplicas\x7d").data)⟩]
    [⟨("deploy.yaml").data, none, [],
      YNode.scalar (("3").data) (("# kpt-set: $\x7breplicas\x7d").data)⟩]
    (walkAll (pushWarning LSNew msgNoKptfile)
      [⟨("deploy.yaml").data, none, [],
        YNode.scalar (("3").data) (("# kpt-set: $\x7breplicas\x7d").data)⟩])
    rfl
  ⟨h.1, h.2 _ _ _ _ (List.Perm.refl _) (List.Perm.refl _) (List.Perm.refl _) (List.Perm.refl _)⟩

end Listsetters
